import Mathlib

/-!
Verification development for the `diffpack` diff-tree builder
(`src/wasm/diff-wasm/src/core.rs`).

Shallow embedding conventions:
* Rust `HashMap<String, FileMapEntry>` is modelled as an association list
  `List (String × FileMapEntry)` (keys unique in real inputs; lookup takes the
  first match, as `HashMap::get` does for its unique key).  Iteration order of
  hash containers is unspecified in Rust; the embedding takes the list order
  as the iteration order, so the list order is the model of that choice.
* Rust `f64` similarity scores are modelled by exact fractions `Frac`
  (numerator/denominator, no normalisation, so all operations are plain `Int`
  arithmetic and kernel-reducible).  All fractions produced by the algorithm
  have positive denominators.  `1.2` is `6/5`, `0.7` is `7/10`.
  The check `r <= 1.0 / threshold` of `can_be_similar` is modelled as
  `r * threshold <= 1`, which agrees with IEEE semantics for `threshold = 0`
  (where `1.0 / 0.0 = +inf` accepts everything).
* The 64-bit content hash of rename phase 1 only groups candidates; every
  group hit is confirmed by full content equality before being used, so the
  phase is embedded by its equality semantics: an added file is paired with
  the first still-unused deleted file (in iteration order) with equal content.
* `TextDiff` of the `similar` crate is a Myers-style line diff; it is embedded
  by a longest-common-subsequence diff emitting `Equal`/`Delete`/`Insert`
  tags, with `Delete` emitted before `Insert` on ties.  `from_slices` works on
  the token lists given to it; `from_lines` tokenizes keeping the trailing
  newline on each line and without a trailing empty token.
* Core string routines (`split('\n')`, `str::lines`, `rfind('/')`,
  byte lengths) are re-implemented on `List Char` so that everything reduces
  in the kernel.
-/

set_option maxHeartbeats 4000000
set_option maxRecDepth 10000
set_option linter.unusedVariables false

namespace Diffpack

/-! ## Exact fractions standing in for `f64` scores -/

structure Frac where
  num : Int
  den : Int
deriving DecidableEq, Repr

/-- `a <= b` on fractions by cross multiplication (valid for the positive
denominators the algorithm produces). -/
def Frac.fle (a b : Frac) : Bool := a.num * b.den ≤ b.num * a.den

/-- `a < b` on fractions by cross multiplication. -/
def Frac.flt (a b : Frac) : Bool := a.num * b.den < b.num * a.den

def Frac.fmul (a b : Frac) : Frac := ⟨a.num * b.num, a.den * b.den⟩

/-- `f64::max` on scores. -/
def Frac.fmax (a b : Frac) : Frac := if a.fle b then b else a

/-- `f64::min` on scores. -/
def Frac.fmin (a b : Frac) : Frac := if a.fle b then a else b

def natFrac (n : Nat) : Frac := ⟨n, 1⟩

/-- The quotient `a / b` of two naturals as a fraction. -/
def natDivFrac (a b : Nat) : Frac := ⟨a, b⟩

/-! ## Data model (`src/wasm/diff-wasm/src/types.rs`)

Modelled from the spec: `types.rs` is not in the provided sources; the spec
(§3 DATA MODEL) gives `FileMapEntry` as `file_type ∈ {File, Directory}` plus
`content`, `DiffStatus` as the five statuses, and `DiffFileEntry` with the
listed fields.  This matches every use in `core.rs`. -/

inductive FileType where
  | File
  | Directory
deriving DecidableEq, Repr

structure FileMapEntry where
  file_type : FileType
  content : String
deriving DecidableEq, Repr

inductive DiffStatus where
  | Added
  | Removed
  | Modified
  | Unchanged
  | Renamed
deriving DecidableEq, Repr

/-- Output tree node.  `children` is `Option<Vec<_>>` in the source but every
constructed node carries `Some`, and `compute_node_stats` treats `None` like
an empty list; it is embedded as a plain list. -/
inductive DiffFileEntry where
  | mk (path : String) (old_path : Option String) (file_type : FileType)
      (status : DiffStatus) (added : Option Nat) (removed : Option Nat)
      (children : List DiffFileEntry)

def DiffFileEntry.path : DiffFileEntry → String
  | .mk p _ _ _ _ _ _ => p

def DiffFileEntry.old_path : DiffFileEntry → Option String
  | .mk _ op _ _ _ _ _ => op

def DiffFileEntry.file_type : DiffFileEntry → FileType
  | .mk _ _ ft _ _ _ _ => ft

def DiffFileEntry.status : DiffFileEntry → DiffStatus
  | .mk _ _ _ st _ _ _ => st

def DiffFileEntry.added : DiffFileEntry → Option Nat
  | .mk _ _ _ _ a _ _ => a

def DiffFileEntry.removed : DiffFileEntry → Option Nat
  | .mk _ _ _ _ _ r _ => r

def DiffFileEntry.children : DiffFileEntry → List DiffFileEntry
  | .mk _ _ _ _ _ _ cs => cs

abbrev FileMap := List (String × FileMapEntry)

/-! ## String primitives (kernel-reducible re-implementations) -/

/-- Split a character list at every occurrence of `sep`; always returns at
least one (possibly empty) piece, like Rust `str::split(sep)`. -/
def splitChars (sep : Char) : List Char → List (List Char)
  | [] => [[]]
  | c :: cs =>
    let r := splitChars sep cs
    if c = sep then [] :: r
    else
      match r with
      | [] => [[c]]
      | h :: t => (c :: h) :: t

/-- Rust `s.split('\n').collect()`. -/
def splitNl (s : String) : List String :=
  (splitChars '\n' s.data).map (fun l => ⟨l⟩)

/-- Rust `s.split('/').collect()`. -/
def splitSlash (s : String) : List String :=
  (splitChars '/' s.data).map (fun l => ⟨l⟩)

/-- Strip one trailing carriage return (`str::lines` line-ending handling). -/
def stripCr (l : List Char) : List Char :=
  match l.getLast? with
  | some '\r' => l.dropLast
  | _ => l

/-- Rust `s.lines().collect()`: split at `'\n'`, no element for a trailing
newline, a `'\r'` before a split point is removed. -/
def rustLines (s : String) : List String :=
  let parts := splitChars '\n' s.data
  match parts.getLast? with
  | some [] => parts.dropLast.map (fun l => ⟨stripCr l⟩)
  | some last => parts.dropLast.map (fun l => ⟨stripCr l⟩) ++ [⟨last⟩]
  | none => []

/-- Rust `s.lines().count()`. -/
def rustLineCount (s : String) : Nat := (rustLines s).length

/-- The `similar` crate tokenization used by `TextDiff::from_lines`: each line
keeps its trailing newline, a final piece without newline is kept, the empty
string has no tokens. -/
def splitLinesKeepEnds (s : String) : List String :=
  let parts := splitChars '\n' s.data
  match parts.getLast? with
  | some [] => parts.dropLast.map (fun l => ⟨l ++ ['\n']⟩)
  | some last => parts.dropLast.map (fun l => ⟨l ++ ['\n']⟩) ++ [⟨last⟩]
  | none => []

/-- Byte length of the UTF-8 encoding (Rust `str::len`). -/
def byteLen (s : String) : Nat :=
  s.data.foldl (fun n c => n + c.utf8Size) 0

/-- Keep the first copy of every element (`HashSet` insertion semantics). -/
def dedupKeepFirst : List String → List String
  | [] => []
  | x :: xs => x :: (dedupKeepFirst xs).filter (fun y => y ≠ x)

/-- Byte-wise lexicographic order of Rust `String` sorting (on UTF-8 strings,
code-point order coincides with byte order). -/
def lexLe : List Char → List Char → Bool
  | [], _ => true
  | _ :: _, [] => false
  | a :: as, b :: bs =>
    if a < b then true else if b < a then false else lexLe as bs

def strLe (a b : String) : Bool := lexLe a.data b.data

/-- Insertion sort by `strLe`; on lists of distinct strings this yields the
same (unique) sorted order as Rust `Vec::sort`. -/
def insertSorted (x : String) : List String → List String
  | [] => [x]
  | y :: ys => if strLe x y then x :: y :: ys else y :: insertSorted x ys

def sortStrings (l : List String) : List String := l.foldr insertSorted []

/-! ## Line differ (the `similar` crate usage) -/

inductive ChangeTag where
  | Delete
  | Insert
  | Equal
deriving DecidableEq, Repr

/-- Length of the longest common subsequence (fuel-driven so that the kernel
can evaluate it; the fuel is always at least the sum of the list lengths). -/
def lcsLenF : Nat → List String → List String → Nat
  | 0, _, _ => 0
  | _ + 1, [], _ => 0
  | _ + 1, _ :: _, [] => 0
  | fuel + 1, x :: xs, y :: ys =>
    if x = y then lcsLenF fuel xs ys + 1
    else max (lcsLenF fuel xs (y :: ys)) (lcsLenF fuel (x :: xs) ys)

/-- LCS line diff: a Myers-style minimal edit script with `Delete` before
`Insert` on ties, as `similar` emits. -/
def lcsDiffF : Nat → List String → List String → List (ChangeTag × String)
  | 0, _, _ => []
  | _ + 1, [], ys => ys.map (fun y => (ChangeTag.Insert, y))
  | _ + 1, x :: xs, [] => (x :: xs).map (fun x => (ChangeTag.Delete, x))
  | fuel + 1, x :: xs, y :: ys =>
    if x = y then (ChangeTag.Equal, x) :: lcsDiffF fuel xs ys
    else if lcsLenF fuel xs (y :: ys) ≥ lcsLenF fuel (x :: xs) ys then
      (ChangeTag.Delete, x) :: lcsDiffF fuel xs (y :: ys)
    else
      (ChangeTag.Insert, y) :: lcsDiffF fuel (x :: xs) ys

def lineDiff (xs ys : List String) : List (ChangeTag × String) :=
  lcsDiffF (xs.length + ys.length) xs ys

/-- `TextDiff::from_lines(from, to).iter_all_changes()`. -/
def textDiffLines (fromS toS : String) : List (ChangeTag × String) :=
  lineDiff (splitLinesKeepEnds fromS) (splitLinesKeepEnds toS)

/-- `core.rs` `count_diff`: `(inserted, deleted)` line counts of the diff. -/
def count_diff (fromS toS : String) : Nat × Nat :=
  let changes := textDiffLines fromS toS
  (changes.countP (fun c => c.1 == ChangeTag.Insert),
   changes.countP (fun c => c.1 == ChangeTag.Delete))

def signOf : ChangeTag → String
  | ChangeTag.Delete => "-"
  | ChangeTag.Insert => "+"
  | ChangeTag.Equal => " "

/-- `core.rs` `get_diff_content`: header plus one `<sign><space><content>`
line per change of the diff over the `split('\n')` line lists. -/
def get_diff_content (filename fromS toS : String) : String :=
  let fromLines := splitNl fromS
  let toLines := splitNl toS
  let changes := lineDiff fromLines toLines
  changes.foldl (fun acc c => acc ++ "\n" ++ signOf c.1 ++ " " ++ c.2)
    ("--- from/" ++ filename ++ "\n+++ to/" ++ filename)

/-! ## Similarity machinery of the rename detector -/

/-- `calculate_similarity`: share of `Equal` lines in the line diff, with the
two short-circuits of the source. -/
def calculate_similarity (fromS toS : String) : Frac :=
  if fromS = toS then ⟨1, 1⟩
  else if fromS = "" ∨ toS = "" then ⟨0, 1⟩
  else
    let changes := textDiffLines fromS toS
    let a := changes.countP (fun c => c.1 == ChangeTag.Insert)
    let r := changes.countP (fun c => c.1 == ChangeTag.Delete)
    let u := changes.countP (fun c => c.1 == ChangeTag.Equal)
    natDivFrac u (max (a + r + u) 1)

/-- The distinct lines of a blob (`content.lines().collect::<HashSet<_>>()`). -/
def lineSet (s : String) : List String := dedupKeepFirst (rustLines s)

/-- `jaccard_similarity` on two line sets. -/
def jaccard_similarity (set1 set2 : List String) : Frac :=
  if set1 = [] ∧ set2 = [] then ⟨1, 1⟩
  else
    let inter := set1.countP (fun l => set2.contains l)
    let union := set1.length + set2.length - inter
    if union = 0 then ⟨0, 1⟩ else natDivFrac inter union

/-- `can_be_similar`: byte-length quotient filter. -/
def can_be_similar (t : Frac) (fromS toS : String) : Bool :=
  let r := natDivFrac (byteLen fromS) (max (byteLen toS) 1)
  t.fle r && (r.fmul t).fle ⟨1, 1⟩

/-- Last `'/'`-segment of a path (`path.split('/').last().unwrap_or("")`). -/
def basename (p : String) : String := ((splitChars '/' p.data).getLastD []).asString

/-- `file_content`: the content of a `File`-typed entry, `None` otherwise. -/
def file_content (m : FileMap) (p : String) : Option String :=
  match m.lookup p with
  | some e =>
    match e.file_type with
    | FileType.File => some e.content
    | FileType.Directory => none
  | none => none

/-! ## Rename detector -/

/-- Phase 1 lookup for one added file: the first still-unused deleted path
with byte-equal content.  (The source buckets deleted paths by a 64-bit
content hash and confirms every candidate by full equality, so the result is
exactly this first equal-content match in iteration order.) -/
def findExactMatch (fromM : FileMap) (deleted used : List String)
    (ac : String) : Option String :=
  deleted.find? (fun d =>
    !used.contains d &&
      match file_content fromM d with
      | some dc => dc == ac
      | none => false)

/-- Phase 1 of `detect_renames_optimized`: exact content matches.  Returns the
rename map (new path → old path) and the list of used deleted paths. -/
def phase1 (fromM toM : FileMap) (deleted added : List String) :
    List (String × String) × List String :=
  added.foldl
    (fun acc addPath =>
      match file_content toM addPath with
      | none => acc
      | some ac =>
        match findExactMatch fromM deleted acc.2 ac with
        | some d => (acc.1 ++ [(addPath, d)], acc.2 ++ [d])
        | none => acc)
    ([], [])

/-- The filename-boosted similarity score of phase 2: the line similarity,
times `1.2` when the two basenames coincide. -/
def adjustedSimilarity (delPath addPath dc ac : String) : Frac :=
  let sim := calculate_similarity dc ac
  if basename addPath = basename delPath then sim.fmul ⟨6, 5⟩ else sim

/-- One candidate step of the phase-2 scan, with the three filters of the
source in order, the threshold test on the boosted score, and the
strictly-greater best update. -/
def phase2Step (fromM : FileMap) (t : Frac) (addPath ac : String)
    (used : List String) (best : Option (String × Frac)) (delPath : String) :
    Option (String × Frac) :=
  if used.contains delPath then best
  else
    match file_content fromM delPath with
    | none => best
    | some dc =>
      if !can_be_similar t dc ac then best
      else if (jaccard_similarity (lineSet ac) (lineSet dc)).flt (t.fmul ⟨7, 10⟩) then best
      else
        let adjusted := adjustedSimilarity delPath addPath dc ac
        if t.fle adjusted then
          match best with
          | some (_, bestSim) =>
            if bestSim.flt adjusted then some (delPath, adjusted) else best
          | none => some (delPath, adjusted)
        else best

/-- The phase-2 scan over all deleted candidates for one added path. -/
def phase2Scan (fromM : FileMap) (t : Frac) (addPath ac : String)
    (deleted used : List String) : Option (String × Frac) :=
  deleted.foldl (phase2Step fromM t addPath ac used) none

/-- `detect_renames_optimized`: phase 1 then the phase-2 similarity pass. -/
def detect_renames_optimized (fromM toM : FileMap) (t : Frac)
    (deleted added : List String) : List (String × String) :=
  let p1 := phase1 fromM toM deleted added
  (added.foldl
    (fun acc addPath =>
      if (acc.1.lookup addPath).isSome then acc
      else
        match file_content toM addPath with
        | none => acc
        | some ac =>
          match phase2Scan fromM t addPath ac deleted acc.2 with
          | some (fromPath, _) =>
            (acc.1 ++ [(addPath, fromPath)], acc.2 ++ [fromPath])
          | none => acc)
    p1).1

/-! ## Path classification -/

/-- `collect_file_paths`: keys whose entry is `File`-typed. -/
def collect_file_paths (m : FileMap) : List String :=
  (m.filter (fun e => e.2.file_type == FileType.File)).map (fun e => e.1)

/-- Character positions holding `'/'` (`'/'` is ASCII, so these coincide with
the byte positions `rfind('/')` works with). -/
def slashPositions (cs : List Char) : List Nat :=
  (List.range cs.length).filter (fun i => cs.get? i == some '/')

/-- The strict parent directories contributed by one key: the loop of
`collect_directories` inserts `path[..e]` for every slash position `e > 0`. -/
def impliedDirs (p : String) : List String :=
  ((slashPositions p.data).filter (fun i => 0 < i)).map (fun i => (p.data.take i).asString)

/-- `collect_directories`: `Directory`-typed keys plus implied parents. -/
def collect_directories (m : FileMap) : List String :=
  m.foldr
    (fun e acc =>
      (if e.2.file_type == FileType.Directory then [e.1] else [])
        ++ impliedDirs e.1 ++ acc)
    []

/-- `parent_path`: everything before the last `'/'`, `"/"` when the slash is
leading or absent. -/
def parent_path (p : String) : String :=
  match (slashPositions p.data).getLast? with
  | some 0 => "/"
  | some i => (p.data.take i).asString
  | none => "/"

/-! ## Tree builder -/

/-- `resolve_file_type`: an entry of either map decides; otherwise the path is
a (derived) directory — the source returns `Directory` in both remaining
branches. -/
def resolve_file_type (fromM toM : FileMap) (p : String) : FileType :=
  match fromM.lookup p with
  | some e => e.file_type
  | none =>
    match toM.lookup p with
    | some e => e.file_type
    | none => FileType.Directory

/-- The placeholder node `build_tree_structure` creates for a path. -/
def mkNode (fromM toM : FileMap) (p : String) (children : List DiffFileEntry) :
    DiffFileEntry :=
  .mk p none (resolve_file_type fromM toM p) DiffStatus.Unchanged none none children

/-- `build_children`: attach, under `parent`, every available path whose
`parent_path` is `parent`, sorted lexicographically, each with its own
children built recursively.  Fuel-driven; nesting depth is bounded by the
longest path, so the caller's fuel is always sufficient. -/
def buildChildrenF (fromM toM : FileMap) :
    Nat → List String → String → List DiffFileEntry
  | 0, _, _ => []
  | fuel + 1, avail, parent =>
    let childPaths := sortStrings (avail.filter (fun p => parent_path p == parent))
    childPaths.map (fun c => mkNode fromM toM c (buildChildrenF fromM toM fuel avail c))

/-- `build_tree_structure`: one node per path of the union (root excluded),
hung under its parent, below a synthetic `"/"` root. -/
def build_tree_structure (fromM toM : FileMap)
    (fromPaths toPaths fromDirs toDirs : List String) : DiffFileEntry :=
  let allPaths :=
    dedupKeepFirst ((fromPaths ++ toPaths ++ fromDirs ++ toDirs).filter (fun p => p != "/"))
  let fuel := (allPaths.map String.length).foldr max 0 + 2
  .mk "/" none FileType.Directory DiffStatus.Unchanged none none
    (buildChildrenF fromM toM fuel allPaths "/")

/-! ## Status & stats propagator -/

/-- The non-rename file cases of `compute_node_stats` (also reached by the
fall-through of a rename whose contents cannot both be fetched; `old_path`
stays as already set in that case, statuses are always overwritten). -/
def fileFallback (fromM toM : FileMap) (p : String) (op : Option String)
    (ft : FileType) (children : List DiffFileEntry) : DiffFileEntry × Nat × Nat :=
  match file_content fromM p, file_content toM p with
  | some f, some t =>
    if f = t then
      (.mk p op ft DiffStatus.Unchanged (some 0) (some 0) children, 0, 0)
    else
      let c := count_diff f t
      (.mk p op ft DiffStatus.Modified (some c.1) (some c.2) children, c.1, c.2)
  | some f, none =>
    (.mk p op ft DiffStatus.Removed (some 0) (some (rustLineCount f)) children,
      0, rustLineCount f)
  | none, some t =>
    (.mk p op ft DiffStatus.Added (some (rustLineCount t)) (some 0) children,
      rustLineCount t, 0)
  | none, none =>
    (.mk p op ft DiffStatus.Unchanged (some 0) (some 0) children, 0, 0)

/-- The directory-status decision chain of `compute_node_stats` (source lines
488-500), applied to the already-computed children. -/
def dirStatus (fromDirs toDirs : List String) (p : String)
    (computed : List DiffFileEntry) : DiffStatus :=
  let allU := computed.all (fun c => c.status == DiffStatus.Unchanged)
  let inFrom := p == "/" || fromDirs.contains p
  let inTo := p == "/" || toDirs.contains p
  if !inFrom && inTo then DiffStatus.Added
  else if inFrom && !inTo then DiffStatus.Removed
  else if allU then DiffStatus.Unchanged
  else DiffStatus.Modified

mutual

/-- `compute_node_stats`: post-order status and count assignment. -/
def compute_node_stats (fromM toM : FileMap) (renames : List (String × String))
    (fromDirs toDirs : List String) : DiffFileEntry → DiffFileEntry × Nat × Nat
  | .mk p op ft st a r children =>
    match ft with
    | FileType.File =>
      match renames.lookup p with
      | some oldPath =>
        match file_content fromM oldPath, file_content toM p with
        | some f, some t =>
          let c := count_diff f t
          (.mk p (some oldPath) ft DiffStatus.Renamed (some c.1) (some c.2) children,
            c.1, c.2)
        | _, _ => fileFallback fromM toM p (some oldPath) ft children
      | none => fileFallback fromM toM p op ft children
    | FileType.Directory =>
      let res := computeChildren fromM toM renames fromDirs toDirs children
      (.mk p op ft (dirStatus fromDirs toDirs p res.1) (some res.2.1)
        (some res.2.2) res.1, res.2.1, res.2.2)

/-- The recursion of `compute_node_stats` over a child list, accumulating the
returned counts. -/
def computeChildren (fromM toM : FileMap) (renames : List (String × String))
    (fromDirs toDirs : List String) : List DiffFileEntry → List DiffFileEntry × Nat × Nat
  | [] => ([], 0, 0)
  | c :: cs =>
    let rc := compute_node_stats fromM toM renames fromDirs toDirs c
    let rcs := computeChildren fromM toM renames fromDirs toDirs cs
    (rc.1 :: rcs.1, rc.2.1 + rcs.2.1, rc.2.2 + rcs.2.2)

end

/-! ## Top-level entry points -/

/-- `DiffTreeBuilder::build_tree` with the fields `set_from_files` /
`set_to_files` derive. -/
def build_tree (fromM toM : FileMap) (t : Frac) : DiffFileEntry :=
  let fromFilePaths := collect_file_paths fromM
  let toFilePaths := collect_file_paths toM
  let fromDirs := collect_directories fromM
  let toDirs := collect_directories toM
  let fromPaths := fromM.map (fun e => e.1)
  let toPaths := toM.map (fun e => e.1)
  let deleted := fromFilePaths.filter (fun p => !toFilePaths.contains p)
  let added := toFilePaths.filter (fun p => !fromFilePaths.contains p)
  let renames := detect_renames_optimized fromM toM t deleted added
  let tree := build_tree_structure fromM toM fromPaths toPaths fromDirs toDirs
  (compute_node_stats fromM toM renames fromDirs toDirs tree).1

/-- `f64.max(0.0).min(1.0)` threshold clamping of `DiffTreeBuilder::new`. -/
def clamp01 (t : Frac) : Frac := (t.fmax ⟨0, 1⟩).fmin ⟨1, 1⟩

/-- `build_diff_tree`: the public entry point. -/
def build_diff_tree (fromM toM : FileMap) (t : Frac) : DiffFileEntry :=
  build_tree fromM toM (clamp01 t)

/-! ## Observation helpers for the statements -/

mutual

/-- Every node of a subtree, the root of the subtree included. -/
def subtreeNodes : DiffFileEntry → List DiffFileEntry
  | .mk p op ft st a r cs => .mk p op ft st a r cs :: subtreeNodesList cs

def subtreeNodesList : List DiffFileEntry → List DiffFileEntry
  | [] => []
  | c :: cs => subtreeNodes c ++ subtreeNodesList cs

end

mutual

/-- The `File`-typed nodes of a subtree (a file node is its own single file
descendant; directories collect over their children). -/
def filesIn : DiffFileEntry → List DiffFileEntry
  | .mk p op ft st a r cs =>
    match ft with
    | FileType.File => [.mk p op ft st a r cs]
    | FileType.Directory => filesInList cs

def filesInList : List DiffFileEntry → List DiffFileEntry
  | [] => []
  | c :: cs => filesIn c ++ filesInList cs

end

mutual

/-- Input sanity of a built tree: no `File`-typed node carries children
(violated only when an input uses one path both as a file and as a parent
directory of another path). -/
def filesChildless : DiffFileEntry → Bool
  | .mk _ _ ft _ _ _ cs =>
    (match ft with
     | FileType.File => cs.isEmpty
     | FileType.Directory => true)
      && filesChildlessList cs

def filesChildlessList : List DiffFileEntry → Bool
  | [] => true
  | c :: cs => filesChildless c && filesChildlessList cs

end

/-- The node a given path resolves to, if any. -/
def findByPath (t : DiffFileEntry) (p : String) : Option DiffFileEntry :=
  (subtreeNodes t).find? (fun n => n.path == p)

/-- Strong structural induction over the node type. -/
theorem treeInd (P : DiffFileEntry → Prop)
    (h : ∀ p op ft st a r cs, (∀ c ∈ cs, P c) → P (.mk p op ft st a r cs)) :
    ∀ t, P t := by
  intro t
  refine @DiffFileEntry.rec P (fun cs => ∀ c ∈ cs, P c) h ?_ ?_ t
  · intro c hc
    cases hc
  · intro hd tl hhd htl c hc
    rcases hc with _ | h
    · exact hhd
    · exact htl c (by assumption)

/-! ## Membership lemmas for the observation helpers -/

theorem subtreeNodesList_eq (L : List DiffFileEntry) :
    subtreeNodesList L = L.flatMap subtreeNodes := by
  induction L with
  | nil => simp [subtreeNodesList]
  | cons c cs ih => simp [subtreeNodesList, ih]

theorem mem_subtreeNodesList {n : DiffFileEntry} {L : List DiffFileEntry} :
    n ∈ subtreeNodesList L ↔ ∃ t ∈ L, n ∈ subtreeNodes t := by
  simp [subtreeNodesList_eq]

theorem filesInList_eq (L : List DiffFileEntry) :
    filesInList L = L.flatMap filesIn := by
  induction L with
  | nil => simp [filesInList]
  | cons c cs ih => simp [filesInList, ih]

theorem mem_filesInList {n : DiffFileEntry} {L : List DiffFileEntry} :
    n ∈ filesInList L ↔ ∃ t ∈ L, n ∈ filesIn t := by
  simp [filesInList_eq]

theorem subtreeNodes_expand (p : String) (op : Option String) (ft : FileType)
    (st : DiffStatus) (a r : Option Nat) (cs : List DiffFileEntry) :
    subtreeNodes (.mk p op ft st a r cs) =
      DiffFileEntry.mk p op ft st a r cs :: subtreeNodesList cs := by
  simp [subtreeNodes]

theorem self_mem_subtreeNodes (t : DiffFileEntry) : t ∈ subtreeNodes t := by
  cases t
  simp [subtreeNodes]

theorem subtreeNodes_trans :
    ∀ t n m : DiffFileEntry, n ∈ subtreeNodes t → m ∈ subtreeNodes n →
      m ∈ subtreeNodes t := by
  intro t
  induction t using treeInd with
  | h p op ft st a r cs ih =>
    intro n m hn hm
    rw [subtreeNodes_expand] at hn ⊢
    rcases List.mem_cons.mp hn with hn | hn
    · subst hn
      rw [subtreeNodes_expand] at hm
      exact hm
    · rcases mem_subtreeNodesList.mp hn with ⟨c, hc, hnc⟩
      exact List.mem_cons_of_mem _ (mem_subtreeNodesList.mpr ⟨c, hc, ih c hc n m hnc hm⟩)

theorem children_mem_subtreeNodes {t c : DiffFileEntry} (hc : c ∈ t.children) :
    c ∈ subtreeNodes t := by
  cases t with
  | mk p op ft st a r cs =>
    rw [subtreeNodes_expand]
    exact List.mem_cons_of_mem _
      (mem_subtreeNodesList.mpr ⟨c, hc, self_mem_subtreeNodes c⟩)

theorem filesIn_mem_subtreeNodes :
    ∀ t m : DiffFileEntry, m ∈ filesIn t → m ∈ subtreeNodes t := by
  intro t
  induction t using treeInd with
  | h p op ft st a r cs ih =>
    intro m hm
    rw [subtreeNodes_expand]
    cases ft with
    | File =>
      simp [filesIn] at hm
      simp [hm]
    | Directory =>
      simp only [filesIn] at hm
      rcases mem_filesInList.mp hm with ⟨c, hc, hmc⟩
      exact List.mem_cons_of_mem _ (mem_subtreeNodesList.mpr ⟨c, hc, ih c hc m hmc⟩)

/-! ## The builder produces placeholder nodes only -/

/-- The field state every node has when it leaves `build_tree_structure`. -/
def Placeholder (n : DiffFileEntry) : Prop :=
  n.status = DiffStatus.Unchanged ∧ n.old_path = none ∧ n.added = none ∧
    n.removed = none

theorem buildChildrenF_placeholder (fromM toM : FileMap) :
    ∀ (fuel : Nat) (avail : List String) (parent : String)
      (n : DiffFileEntry),
      n ∈ subtreeNodesList (buildChildrenF fromM toM fuel avail parent) →
        Placeholder n := by
  intro fuel
  induction fuel with
  | zero =>
    intro avail parent n hn
    simp [buildChildrenF, subtreeNodesList] at hn
  | succ fuel ih =>
    intro avail parent n hn
    rcases mem_subtreeNodesList.mp hn with ⟨t, ht, hnt⟩
    simp only [buildChildrenF, List.mem_map] at ht
    rcases ht with ⟨c, hc, rfl⟩
    rw [mkNode, subtreeNodes_expand] at hnt
    rcases List.mem_cons.mp hnt with hnt | hnt
    · subst hnt
      exact ⟨rfl, rfl, rfl, rfl⟩
    · exact ih avail c n hnt

theorem build_tree_structure_placeholder (fromM toM : FileMap)
    (fromPaths toPaths fromDirs toDirs : List String) (n : DiffFileEntry)
    (hn : n ∈ subtreeNodes
      (build_tree_structure fromM toM fromPaths toPaths fromDirs toDirs)) :
    Placeholder n := by
  rw [build_tree_structure, subtreeNodes_expand] at hn
  rcases List.mem_cons.mp hn with hn | hn
  · subst hn
    exact ⟨rfl, rfl, rfl, rfl⟩
  · exact buildChildrenF_placeholder fromM toM _ _ _ n hn

/-! ## Concrete fixtures -/

def fileEntry (c : String) : FileMapEntry := ⟨FileType.File, c⟩

def dirEntry : FileMapEntry := ⟨FileType.Directory, ""⟩

/-- Right-fold string concatenation, for stating the patch format. -/
def joinStr : List String → String
  | [] => ""
  | x :: xs => x ++ joinStr xs

theorem foldl_patch_lines :
    ∀ (l : List (ChangeTag × String)) (init : String),
      l.foldl (fun acc c => acc ++ "\n" ++ signOf c.1 ++ " " ++ c.2) init =
        init ++ joinStr (l.map (fun c => "\n" ++ signOf c.1 ++ " " ++ c.2)) := by
  intro l
  induction l with
  | nil =>
    intro init
    simp [joinStr, String.append_empty]
  | cons c cs ih =>
    intro init
    rw [List.foldl_cons, ih, List.map_cons, joinStr]
    simp only [String.append_assoc]

/-! ## Claim theorems -/

/-- C9: `get_diff_content` returns the `--- from/<filename>` / `+++ to/<filename>`
header followed, for each change of the line differ over the `split('\n')`
line lists, by a newline and `<sign><space><content>` with `-`/`+`/`' '` for
`Delete`/`Insert`/`Equal` and no hunk headers; for `"f"`, `"a\nb\n"`,
`"a\nc\n"` the result begins exactly with `--- from/f\n+++ to/f\n` and its
lines are `  a`, `- b`, `+ c` and the trailing empty-line artefact `"  "`. -/
theorem C9_get_diff_content_format :
    (∀ filename fromS toS : String,
      get_diff_content filename fromS toS =
        "--- from/" ++ filename ++ "\n+++ to/" ++ filename ++
          joinStr ((lineDiff (splitNl fromS) (splitNl toS)).map
            (fun c => "\n" ++ signOf c.1 ++ " " ++ c.2))) ∧
    signOf ChangeTag.Delete = "-" ∧
    signOf ChangeTag.Insert = "+" ∧
    signOf ChangeTag.Equal = " " ∧
    get_diff_content "f" "a\nb\n" "a\nc\n" =
      "--- from/f\n+++ to/f\n  a\n- b\n+ c\n  " ∧
    splitNl (get_diff_content "f" "a\nb\n" "a\nc\n") =
      ["--- from/f", "+++ to/f", "  a", "- b", "+ c", "  "] := by
  refine ⟨?_, rfl, rfl, rfl, by decide, by decide⟩
  intro filename fromS toS
  rw [get_diff_content]
  exact foldl_patch_lines _ _

/-- C1: at `from = {"a.txt": "x\n"}`, `to = {"b.txt": "x\n"}`, threshold
`0.7`, the rename pair `b.txt ← a.txt` is detected and `b.txt` is emitted as
`Renamed` with `old_path = "a.txt"` and counts `(0, 0)` — but, contrary to
the claim, a node for the rename's old path `a.txt` is also present, with
status `Removed` and `removed = 1`: `build_tree_structure` hangs every key of
`from_files` into the tree and never excludes the sources of rename pairs. -/
theorem C1_old_path_node_still_present :
    ((findByPath (build_diff_tree [("a.txt", fileEntry "x\n")]
        [("b.txt", fileEntry "x\n")] ⟨7, 10⟩) "a.txt").map
      (fun n => (n.file_type, n.status, n.added, n.removed))) =
      some (FileType.File, DiffStatus.Removed, some 0, some 1) ∧
    ((findByPath (build_diff_tree [("a.txt", fileEntry "x\n")]
        [("b.txt", fileEntry "x\n")] ⟨7, 10⟩) "b.txt").map
      (fun n => (n.status, n.old_path, n.added, n.removed))) =
      some (DiffStatus.Renamed, some "a.txt", some 0, some 0) := by
  constructor
  · decide
  · decide

/-- C2 counterexample: at `from = {}`, `to = {"dir/new.txt": "alpha\nbeta\n"}`,
threshold `0.7`, the node `dir/new.txt` gets `added = 2`, not `3`: the source
counts with `str::lines()`, which does not count the empty element after the
trailing newline that `split('\n')` would produce. -/
theorem C2_counterexample_trailing_line :
    ((findByPath (build_diff_tree []
        [("dir/new.txt", fileEntry "alpha\nbeta\n")] ⟨7, 10⟩) "dir/new.txt").map
      (fun n => (n.status, n.added, n.removed))) =
      some (DiffStatus.Added, some 2, some 0) ∧
    ¬ ((findByPath (build_diff_tree []
        [("dir/new.txt", fileEntry "alpha\nbeta\n")] ⟨7, 10⟩) "dir/new.txt").map
      (fun n => n.added)) = some (some 3) := by
  constructor
  · decide
  · decide

/-- C2 amended: a file seen only on the `from` side (and not the target of a
rename pair) is `Removed` with `added = 0` and `removed = lines(from)`, and a
file seen only on the `to` side is `Added` with `removed = 0` and
`added = lines(to)` — where `lines` is Rust `str::lines()`, which counts no
terminal empty element after a trailing newline, so
`lines("alpha\nbeta\n") = 2`. -/
theorem C2_amended_pure_add_remove_tallies
    (fromM toM : FileMap) (renames : List (String × String))
    (fromDirs toDirs : List String) (p : String) (op : Option String)
    (st : DiffStatus) (a r : Option Nat) (cs : List DiffFileEntry) (c : String)
    (hrn : renames.lookup p = none) :
    (file_content fromM p = some c → file_content toM p = none →
      (compute_node_stats fromM toM renames fromDirs toDirs
          (.mk p op FileType.File st a r cs)).1.status = DiffStatus.Removed ∧
        (compute_node_stats fromM toM renames fromDirs toDirs
          (.mk p op FileType.File st a r cs)).1.added = some 0 ∧
        (compute_node_stats fromM toM renames fromDirs toDirs
          (.mk p op FileType.File st a r cs)).1.removed = some (rustLineCount c)) ∧
    (file_content fromM p = none → file_content toM p = some c →
      (compute_node_stats fromM toM renames fromDirs toDirs
          (.mk p op FileType.File st a r cs)).1.status = DiffStatus.Added ∧
        (compute_node_stats fromM toM renames fromDirs toDirs
          (.mk p op FileType.File st a r cs)).1.added = some (rustLineCount c) ∧
        (compute_node_stats fromM toM renames fromDirs toDirs
          (.mk p op FileType.File st a r cs)).1.removed = some 0) := by
  constructor
  · intro hf ht
    simp [compute_node_stats, hrn, fileFallback, hf, ht, DiffFileEntry.status,
      DiffFileEntry.added, DiffFileEntry.removed]
  · intro hf ht
    simp [compute_node_stats, hrn, fileFallback, hf, ht, DiffFileEntry.status,
      DiffFileEntry.added, DiffFileEntry.removed]

/-- C2 amended, witness: the `Added` case at the concrete scenario,
`lines("alpha\nbeta\n") = 2`. -/
theorem C2_amended_witness :
    (([] : List (String × String)).lookup "dir/new.txt" = none) ∧
    file_content [] "dir/new.txt" = none ∧
    file_content [("dir/new.txt", fileEntry "alpha\nbeta\n")] "dir/new.txt" =
      some "alpha\nbeta\n" ∧
    rustLineCount "alpha\nbeta\n" = 2 ∧
    ((compute_node_stats [] [("dir/new.txt", fileEntry "alpha\nbeta\n")] [] [] []
        (.mk "dir/new.txt" none FileType.File DiffStatus.Unchanged none none
          [])).1.status = DiffStatus.Added ∧
      (compute_node_stats [] [("dir/new.txt", fileEntry "alpha\nbeta\n")] [] [] []
        (.mk "dir/new.txt" none FileType.File DiffStatus.Unchanged none none
          [])).1.added = some (rustLineCount "alpha\nbeta\n") ∧
      (compute_node_stats [] [("dir/new.txt", fileEntry "alpha\nbeta\n")] [] [] []
        (.mk "dir/new.txt" none FileType.File DiffStatus.Unchanged none none
          [])).1.removed = some 0) :=
  ⟨rfl, rfl, rfl, rfl,
    (C2_amended_pure_add_remove_tallies [] [("dir/new.txt", fileEntry "alpha\nbeta\n")]
      [] [] [] "dir/new.txt" none DiffStatus.Unchanged none none [] "alpha\nbeta\n"
      rfl).2 rfl rfl⟩

/-- C10: `resolve_file_type` consults `from_files` before `to_files`, so a
path that is a `File` in `from` and a `Directory` in `to` becomes a `File`
node; the `Directory`-typed `to` entry yields no content, so the file branch
of the status propagator classifies it `Removed`.  End to end:
`from = {"p": File "x\n"}`, `to = {"p": Directory}` gives a `File` node `p`
with status `Removed` and `removed = 1`. -/
theorem C10_from_side_type_priority :
    (∀ (fromM toM : FileMap) (p : String) (e : FileMapEntry),
      fromM.lookup p = some e → resolve_file_type fromM toM p = e.file_type) ∧
    (∀ (m : FileMap) (p : String) (e : FileMapEntry),
      m.lookup p = some e → e.file_type = FileType.Directory →
        file_content m p = none) ∧
    (∀ (fromM toM : FileMap) (renames : List (String × String))
        (fromDirs toDirs : List String) (p : String) (op : Option String)
        (st : DiffStatus) (a r : Option Nat) (cs : List DiffFileEntry)
        (c : String),
      renames.lookup p = none → file_content fromM p = some c →
      file_content toM p = none →
        (compute_node_stats fromM toM renames fromDirs toDirs
            (.mk p op FileType.File st a r cs)).1.status = DiffStatus.Removed) ∧
    ((findByPath (build_diff_tree [("p", fileEntry "x\n")] [("p", dirEntry)]
        ⟨7, 10⟩) "p").map (fun n => (n.file_type, n.status, n.removed))) =
      some (FileType.File, DiffStatus.Removed, some 1) := by
  refine ⟨?_, ?_, ?_, by decide⟩
  · intro fromM toM p e he
    simp [resolve_file_type, he]
  · intro m p e he hft
    simp [file_content, he, hft]
  · intro fromM toM renames fromDirs toDirs p op st a r cs c hrn hf ht
    simp [compute_node_stats, hrn, fileFallback, hf, ht, DiffFileEntry.status]

/-- C10 witness: the from-side priority applied at the concrete maps. -/
theorem C10_witness :
    ([("p", fileEntry "x\n")].lookup "p" = some (fileEntry "x\n")) ∧
    resolve_file_type [("p", fileEntry "x\n")] [("p", dirEntry)] "p" =
      (fileEntry "x\n").file_type :=
  ⟨rfl, C10_from_side_type_priority.1 [("p", fileEntry "x\n")] [("p", dirEntry)]
    "p" (fileEntry "x\n") rfl⟩

/-- Nine distinct 32-byte lines: a from-file for the boost-beyond-1 scenario. -/
def c8From : String :=
  "part-1-abcdefghijklmnopqrstuvwx\npart-2-abcdefghijklmnopqrstuvwx\n" ++
  "part-3-abcdefghijklmnopqrstuvwx\npart-4-abcdefghijklmnopqrstuvwx\n" ++
  "part-5-abcdefghijklmnopqrstuvwx\npart-6-abcdefghijklmnopqrstuvwx\n" ++
  "part-7-abcdefghijklmnopqrstuvwx\npart-8-abcdefghijklmnopqrstuvwx\n" ++
  "part-9-abcdefghijklmnopqrstuvwx\n"

/-- The same nine lines plus a new tenth line. -/
def c8To : String := c8From ++ "x\n"

/-- C8: in phase 2, the line similarity is multiplied by `1.2` exactly when
the basenames of the added and deleted paths coincide, before the threshold
comparison, and the boosted score may exceed `1.0`.  Concretely: (a) with
similarity `3/5 < 0.7`, the boosted score `18/25 ≥ 0.7` makes the rename
pairing happen at threshold `0.7`; (b) with similarity `9/10 < 0.95`, the
boosted score is `54/50 > 1.0` and still clears threshold `0.95`, and the
rename is recorded. -/
theorem C8_filename_boost :
    (∀ delPath addPath dc ac : String,
      (basename addPath = basename delPath →
        adjustedSimilarity delPath addPath dc ac =
          (calculate_similarity dc ac).fmul ⟨6, 5⟩) ∧
      (¬ basename addPath = basename delPath →
        adjustedSimilarity delPath addPath dc ac = calculate_similarity dc ac)) ∧
    (calculate_similarity "l1\nl2\nl3\nzz\n" "l1\nl2\nl3\nww\n" = ⟨3, 5⟩ ∧
      Frac.flt ⟨3, 5⟩ ⟨7, 10⟩ = true ∧
      adjustedSimilarity "a.txt" "m/a.txt" "l1\nl2\nl3\nzz\n" "l1\nl2\nl3\nww\n" =
        ⟨18, 25⟩ ∧
      Frac.fle ⟨7, 10⟩ ⟨18, 25⟩ = true ∧
      ((findByPath (build_diff_tree [("a.txt", fileEntry "l1\nl2\nl3\nzz\n")]
          [("m/a.txt", fileEntry "l1\nl2\nl3\nww\n")] ⟨7, 10⟩) "m/a.txt").map
        (fun n => (n.status, n.old_path))) =
        some (DiffStatus.Renamed, some "a.txt")) ∧
    (calculate_similarity c8From c8To = ⟨9, 10⟩ ∧
      Frac.flt ⟨9, 10⟩ ⟨19, 20⟩ = true ∧
      adjustedSimilarity "a.txt" "m/a.txt" c8From c8To = ⟨54, 50⟩ ∧
      Frac.flt ⟨1, 1⟩ ⟨54, 50⟩ = true ∧
      Frac.fle ⟨19, 20⟩ ⟨54, 50⟩ = true ∧
      ((findByPath (build_diff_tree [("a.txt", fileEntry c8From)]
          [("m/a.txt", fileEntry c8To)] ⟨19, 20⟩) "m/a.txt").map
        (fun n => (n.status, n.old_path))) =
        some (DiffStatus.Renamed, some "a.txt")) := by
  refine ⟨?_, by decide, by decide⟩
  intro delPath addPath dc ac
  constructor
  · intro h
    simp [adjustedSimilarity, h]
  · intro h
    simp [adjustedSimilarity, h]

/-- C8 witness: the boost equation applied at a concrete pair of paths. -/
theorem C8_witness :
    (basename "m/a.txt" = basename "a.txt") ∧
    adjustedSimilarity "a.txt" "m/a.txt" "u\n" "v\n" =
      (calculate_similarity "u\n" "v\n").fmul ⟨6, 5⟩ :=
  ⟨rfl, (C8_filename_boost.1 "a.txt" "m/a.txt" "u\n" "v\n").1 rfl⟩

/-! ## C7: identical inputs give an all-Unchanged tree -/

theorem dirStatus_same_sides (fD : List String) (p : String)
    (cs : List DiffFileEntry)
    (hall : cs.all (fun c => c.status == DiffStatus.Unchanged) = true) :
    dirStatus fD fD p cs = DiffStatus.Unchanged := by
  rw [dirStatus]
  simp only [hall]
  cases hb : (p == "/" || fD.contains p) <;> simp [hb]

theorem filter_not_contains_self (l : List String) :
    l.filter (fun p => !l.contains p) = [] := by
  rw [List.filter_eq_nil_iff]
  intro a ha
  simp [ha]

theorem detect_renames_empty_added (fM tM : FileMap) (t : Frac)
    (del : List String) : detect_renames_optimized fM tM t del [] = [] := rfl

/-- The induction core for C7: on a tree of placeholder nodes, with an empty
rename map, equal maps and equal directory sets on both sides, the propagator
leaves every node `Unchanged` with zero counts and returns `(0, 0)`. -/
theorem compute_identical_unchanged (m : FileMap) (fD : List String) :
    ∀ t : DiffFileEntry,
      (∀ n ∈ subtreeNodes t, Placeholder n) →
      (∀ n ∈ subtreeNodes (compute_node_stats m m [] fD fD t).1,
        n.status = DiffStatus.Unchanged ∧ n.added.getD 0 = 0 ∧
          n.removed.getD 0 = 0) ∧
      (compute_node_stats m m [] fD fD t).2 = (0, 0) := by
  intro t
  induction t using treeInd with
  | h p op ft st a r cs ih =>
    intro hp
    have hcs : ∀ c ∈ cs, ∀ n ∈ subtreeNodes c, Placeholder n := by
      intro c hc n hn
      exact hp n (by
        rw [subtreeNodes_expand]
        exact List.mem_cons_of_mem _ (mem_subtreeNodesList.mpr ⟨c, hc, hn⟩))
    cases ft with
    | File =>
      have hself : Placeholder (DiffFileEntry.mk p op FileType.File st a r cs) :=
        hp _ (self_mem_subtreeNodes _)
      obtain ⟨hst, hop, ha, hr⟩ := hself
      simp only [DiffFileEntry.status, DiffFileEntry.old_path, DiffFileEntry.added,
        DiffFileEntry.removed] at hst hop ha hr
      subst hst hop ha hr
      have hres : compute_node_stats m m [] fD fD
          (.mk p none FileType.File DiffStatus.Unchanged none none cs) =
          (.mk p none FileType.File DiffStatus.Unchanged (some 0) (some 0) cs, 0, 0) := by
        rw [compute_node_stats]
        simp only [List.lookup_nil]
        rw [fileFallback]
        cases hf : file_content m p <;> simp
      rw [hres]
      refine ⟨?_, rfl⟩
      intro n hn
      rw [subtreeNodes_expand] at hn
      rcases List.mem_cons.mp hn with hn | hn
      · subst hn
        exact ⟨rfl, rfl, rfl⟩
      · rcases mem_subtreeNodesList.mp hn with ⟨c, hc, hnc⟩
        obtain ⟨h1, h2, h3, h4⟩ := hcs c hc n hnc
        exact ⟨h1, by rw [h3]; rfl, by rw [h4]; rfl⟩
    | Directory =>
      have hlist : ∀ L : List DiffFileEntry, (∀ c ∈ L, c ∈ cs) →
          (∀ n ∈ subtreeNodesList (computeChildren m m [] fD fD L).1,
            n.status = DiffStatus.Unchanged ∧ n.added.getD 0 = 0 ∧
              n.removed.getD 0 = 0) ∧
          (computeChildren m m [] fD fD L).2 = (0, 0) ∧
          ((computeChildren m m [] fD fD L).1.all
            (fun c => c.status == DiffStatus.Unchanged)) = true := by
        intro L
        induction L with
        | nil =>
          intro _
          refine ⟨?_, rfl, rfl⟩
          intro n hn
          simp [subtreeNodesList] at hn
        | cons c L ihL =>
          intro hsub
          have hcmem : c ∈ cs := hsub c (List.mem_cons_self c L)
          have hcP := ih c hcmem (hcs c hcmem)
          have hrest := ihL (fun d hd => hsub d (List.mem_cons_of_mem c hd))
          rw [computeChildren]
          refine ⟨?_, ?_, ?_⟩
          · intro n hn
            simp only [subtreeNodesList] at hn
            rcases List.mem_append.mp hn with hn | hn
            · exact hcP.1 n hn
            · exact hrest.1 n hn
          · have h1 := hcP.2
            have h2 := hrest.2.1
            simp [h1, h2]
          · have hcU : (compute_node_stats m m [] fD fD c).1.status =
                DiffStatus.Unchanged :=
              (hcP.1 _ (self_mem_subtreeNodes _)).1
            simp [List.all_cons, hcU, hrest.2.2]
      have hmain := hlist cs (fun c hc => hc)
      have hres : compute_node_stats m m [] fD fD
          (.mk p op FileType.Directory st a r cs) =
          (.mk p op FileType.Directory DiffStatus.Unchanged (some 0) (some 0)
            (computeChildren m m [] fD fD cs).1, 0, 0) := by
        rw [compute_node_stats]
        rcases hch : computeChildren m m [] fD fD cs with ⟨cs', tot⟩
        rcases htot : tot with ⟨ta, tr⟩
        have hta : ta = 0 := by
          have := hmain.2.1
          rw [hch, htot] at this
          exact (Prod.mk.injEq _ _ _ _ ▸ this).1
        have htr : tr = 0 := by
          have := hmain.2.1
          rw [hch, htot] at this
          exact (Prod.mk.injEq _ _ _ _ ▸ this).2
        have hall : cs'.all (fun c => c.status == DiffStatus.Unchanged) = true := by
          have := hmain.2.2
          rw [hch] at this
          exact this
        subst hta htr
        simp [dirStatus_same_sides fD p cs' hall]
      rw [hres]
      refine ⟨?_, rfl⟩
      intro n hn
      rw [subtreeNodes_expand] at hn
      rcases List.mem_cons.mp hn with hn | hn
      · subst hn
        exact ⟨rfl, rfl, rfl⟩
      · exact hmain.1 n hn

/-- C7: `build_diff_tree(m, m, t)` yields a tree in which every file node is
`Unchanged` with `added = removed = 0`, and the root status is `Unchanged`
(in fact every node is `Unchanged` with zero counts). -/
theorem C7_identical_maps_unchanged (m : FileMap) (t : Frac) :
    (∀ n ∈ subtreeNodes (build_diff_tree m m t),
      n.file_type = FileType.File →
        n.status = DiffStatus.Unchanged ∧ n.added.getD 0 = 0 ∧
          n.removed.getD 0 = 0) ∧
    (build_diff_tree m m t).status = DiffStatus.Unchanged := by
  have hadd : (collect_file_paths m).filter
      (fun p => !(collect_file_paths m).contains p) = [] :=
    filter_not_contains_self _
  have hbuild : build_diff_tree m m t =
      (compute_node_stats m m [] (collect_directories m) (collect_directories m)
        (build_tree_structure m m (m.map (fun e => e.1)) (m.map (fun e => e.1))
          (collect_directories m) (collect_directories m))).1 := by
    simp only [build_diff_tree, build_tree]
    rw [hadd, detect_renames_empty_added]
  have hmain := compute_identical_unchanged m (collect_directories m)
    (build_tree_structure m m (m.map (fun e => e.1)) (m.map (fun e => e.1))
      (collect_directories m) (collect_directories m))
    (fun n hn => build_tree_structure_placeholder _ _ _ _ _ _ n hn)
  constructor
  · intro n hn _
    rw [hbuild] at hn
    exact hmain.1 n hn
  · rw [hbuild]
    exact (hmain.1 _ (self_mem_subtreeNodes _)).1

/-! ## C6: directory counts are sums of child / file-descendant counts -/

/-- The added-line count a node reports (`0` for a not-yet-assigned `None`). -/
def addedCount (n : DiffFileEntry) : Nat := n.added.getD 0

/-- The removed-line count a node reports. -/
def removedCount (n : DiffFileEntry) : Nat := n.removed.getD 0

/-- The count equations C6 asserts of a directory node. -/
def dirSumsOk (D : DiffFileEntry) : Prop :=
  addedCount D = (D.children.map addedCount).sum ∧
  removedCount D = (D.children.map removedCount).sum ∧
  addedCount D = ((filesIn D).map addedCount).sum ∧
  removedCount D = ((filesIn D).map removedCount).sum

theorem zero_sums (t : DiffFileEntry)
    (hp : ∀ n ∈ subtreeNodes t, Placeholder n) :
    ∀ D ∈ subtreeNodes t, dirSumsOk D := by
  have hzero : ∀ n ∈ subtreeNodes t, addedCount n = 0 ∧ removedCount n = 0 := by
    intro n hn
    obtain ⟨_, _, h3, h4⟩ := hp n hn
    exact ⟨by simp [addedCount, h3], by simp [removedCount, h4]⟩
  intro D hD
  have hsubD : ∀ n ∈ subtreeNodes D, n ∈ subtreeNodes t :=
    fun n hn => subtreeNodes_trans t D n hD hn
  refine ⟨?_, ?_, ?_, ?_⟩
  · rw [(hzero D hD).1]
    symm
    apply List.sum_eq_zero
    intro x hx
    rcases List.mem_map.mp hx with ⟨c, hc, rfl⟩
    exact (hzero c (hsubD c (children_mem_subtreeNodes hc))).1
  · rw [(hzero D hD).2]
    symm
    apply List.sum_eq_zero
    intro x hx
    rcases List.mem_map.mp hx with ⟨c, hc, rfl⟩
    exact (hzero c (hsubD c (children_mem_subtreeNodes hc))).2
  · rw [(hzero D hD).1]
    symm
    apply List.sum_eq_zero
    intro x hx
    rcases List.mem_map.mp hx with ⟨c, hc, rfl⟩
    exact (hzero c (hsubD c (filesIn_mem_subtreeNodes D c hc))).1
  · rw [(hzero D hD).2]
    symm
    apply List.sum_eq_zero
    intro x hx
    rcases List.mem_map.mp hx with ⟨c, hc, rfl⟩
    exact (hzero c (hsubD c (filesIn_mem_subtreeNodes D c hc))).2

theorem fileFallback_shape (fM tM : FileMap) (p : String) (op : Option String)
    (ft : FileType) (cs : List DiffFileEntry) :
    ∃ st2 x y, fileFallback fM tM p op ft cs =
      (.mk p op ft st2 (some x) (some y) cs, x, y) := by
  rw [fileFallback]
  rcases hf : file_content fM p with _ | f <;>
    rcases ht : file_content tM p with _ | t <;> dsimp only
  · exact ⟨_, _, _, rfl⟩
  · exact ⟨_, _, _, rfl⟩
  · exact ⟨_, _, _, rfl⟩
  · by_cases hft : f = t
    · rw [if_pos hft]
      exact ⟨_, _, _, rfl⟩
    · rw [if_neg hft]
      exact ⟨_, _, _, rfl⟩

theorem compute_file_shape (fM tM : FileMap) (rn : List (String × String))
    (fD tD : List String) (p : String) (op : Option String) (st : DiffStatus)
    (a r : Option Nat) (cs : List DiffFileEntry) :
    ∃ op2 st2 x y,
      compute_node_stats fM tM rn fD tD (.mk p op FileType.File st a r cs) =
        (.mk p op2 FileType.File st2 (some x) (some y) cs, x, y) := by
  cases hrn : rn.lookup p with
  | none =>
    obtain ⟨st2, x, y, hfb⟩ := fileFallback_shape fM tM p op FileType.File cs
    exact ⟨op, st2, x, y, by
      simp only [compute_node_stats, hrn]
      exact hfb⟩
  | some oldPath =>
    rcases hf : file_content fM oldPath with _ | f
    · obtain ⟨st2, x, y, hfb⟩ :=
        fileFallback_shape fM tM p (some oldPath) FileType.File cs
      exact ⟨some oldPath, st2, x, y, by
        simp only [compute_node_stats, hrn, hf]
        exact hfb⟩
    · rcases ht : file_content tM p with _ | t
      · obtain ⟨st2, x, y, hfb⟩ :=
          fileFallback_shape fM tM p (some oldPath) FileType.File cs
        exact ⟨some oldPath, st2, x, y, by
          simp only [compute_node_stats, hrn, hf, ht]
          exact hfb⟩
      · exact ⟨some oldPath, DiffStatus.Renamed, (count_diff f t).1, (count_diff f t).2,
          by simp only [compute_node_stats, hrn, hf, ht]⟩

theorem compute_dir_shape (fM tM : FileMap) (rn : List (String × String))
    (fD tD : List String) (p : String) (op : Option String) (st : DiffStatus)
    (a r : Option Nat) (cs : List DiffFileEntry) :
    compute_node_stats fM tM rn fD tD (.mk p op FileType.Directory st a r cs) =
      (.mk p op FileType.Directory
        (dirStatus fD tD p (computeChildren fM tM rn fD tD cs).1)
        (some (computeChildren fM tM rn fD tD cs).2.1)
        (some (computeChildren fM tM rn fD tD cs).2.2)
        (computeChildren fM tM rn fD tD cs).1,
       (computeChildren fM tM rn fD tD cs).2.1,
       (computeChildren fM tM rn fD tD cs).2.2) := by
  simp only [compute_node_stats]

theorem compute_sums (fM tM : FileMap) (rn : List (String × String))
    (fD tD : List String) :
    ∀ t : DiffFileEntry,
      (∀ n ∈ subtreeNodes t, Placeholder n) →
      (∀ D ∈ subtreeNodes (compute_node_stats fM tM rn fD tD t).1,
        D.file_type = FileType.Directory → dirSumsOk D) ∧
      (compute_node_stats fM tM rn fD tD t).1.added =
        some (compute_node_stats fM tM rn fD tD t).2.1 ∧
      (compute_node_stats fM tM rn fD tD t).1.removed =
        some (compute_node_stats fM tM rn fD tD t).2.2 ∧
      (compute_node_stats fM tM rn fD tD t).2.1 =
        ((filesIn (compute_node_stats fM tM rn fD tD t).1).map addedCount).sum ∧
      (compute_node_stats fM tM rn fD tD t).2.2 =
        ((filesIn (compute_node_stats fM tM rn fD tD t).1).map removedCount).sum := by
  intro t
  induction t using treeInd with
  | h p op ft st a r cs ih =>
    intro hp
    have hcs : ∀ c ∈ cs, ∀ n ∈ subtreeNodes c, Placeholder n := by
      intro c hc n hn
      exact hp n (by
        rw [subtreeNodes_expand]
        exact List.mem_cons_of_mem _ (mem_subtreeNodesList.mpr ⟨c, hc, hn⟩))
    cases ft with
    | File =>
      obtain ⟨op2, st2, x, y, heq⟩ :=
        compute_file_shape fM tM rn fD tD p op st a r cs
      rw [heq]
      refine ⟨?_, rfl, rfl, ?_, ?_⟩
      · intro D hD hft
        rw [subtreeNodes_expand] at hD
        rcases List.mem_cons.mp hD with hD | hD
        · subst hD
          simp [DiffFileEntry.file_type] at hft
        · rcases mem_subtreeNodesList.mp hD with ⟨c, hc, hDc⟩
          exact zero_sums c (hcs c hc) D hDc
      · simp [filesIn, addedCount, DiffFileEntry.added]
      · simp [filesIn, removedCount, DiffFileEntry.removed]
    | Directory =>
      have hlist : ∀ L : List DiffFileEntry, (∀ c ∈ L, c ∈ cs) →
          (∀ D ∈ subtreeNodesList (computeChildren fM tM rn fD tD L).1,
            D.file_type = FileType.Directory → dirSumsOk D) ∧
          (computeChildren fM tM rn fD tD L).2.1 =
            ((computeChildren fM tM rn fD tD L).1.map addedCount).sum ∧
          (computeChildren fM tM rn fD tD L).2.2 =
            ((computeChildren fM tM rn fD tD L).1.map removedCount).sum ∧
          (computeChildren fM tM rn fD tD L).2.1 =
            ((filesInList (computeChildren fM tM rn fD tD L).1).map addedCount).sum ∧
          (computeChildren fM tM rn fD tD L).2.2 =
            ((filesInList (computeChildren fM tM rn fD tD L).1).map removedCount).sum := by
        intro L
        induction L with
        | nil =>
          intro _
          refine ⟨?_, rfl, rfl, rfl, rfl⟩
          intro D hD
          simp [computeChildren, subtreeNodesList] at hD
        | cons c L ihL =>
          intro hsub
          have hcmem : c ∈ cs := hsub c (List.mem_cons_self c L)
          have hcP := ih c hcmem (hcs c hcmem)
          have hrest := ihL (fun d hd => hsub d (List.mem_cons_of_mem c hd))
          rw [computeChildren]
          have haC : addedCount (compute_node_stats fM tM rn fD tD c).1 =
              (compute_node_stats fM tM rn fD tD c).2.1 := by
            simp [addedCount, hcP.2.1]
          have hrC : removedCount (compute_node_stats fM tM rn fD tD c).1 =
              (compute_node_stats fM tM rn fD tD c).2.2 := by
            simp [removedCount, hcP.2.2.1]
          refine ⟨?_, ?_, ?_, ?_, ?_⟩
          · intro D hD hft
            simp only [subtreeNodesList] at hD
            rcases List.mem_append.mp hD with hD | hD
            · exact hcP.1 D hD hft
            · exact hrest.1 D hD hft
          · simp [List.map_cons, List.sum_cons, haC, hrest.2.1]
          · simp [List.map_cons, List.sum_cons, hrC, hrest.2.2.1]
          · simp only [filesInList, List.map_append, List.sum_append]
            rw [← hcP.2.2.2.1, ← hrest.2.2.2.1]
          · simp only [filesInList, List.map_append, List.sum_append]
            rw [← hcP.2.2.2.2, ← hrest.2.2.2.2]
      have hmain := hlist cs (fun c hc => hc)
      rw [compute_dir_shape]
      refine ⟨?_, rfl, rfl, ?_, ?_⟩
      · intro D hD hft
        rw [subtreeNodes_expand] at hD
        rcases List.mem_cons.mp hD with hD | hD
        · subst hD
          refine ⟨?_, ?_, ?_, ?_⟩
          · simpa [addedCount, DiffFileEntry.added, DiffFileEntry.children]
              using hmain.2.1
          · simpa [removedCount, DiffFileEntry.removed, DiffFileEntry.children]
              using hmain.2.2.1
          · simpa [addedCount, DiffFileEntry.added, filesIn]
              using hmain.2.2.2.1
          · simpa [removedCount, DiffFileEntry.removed, filesIn]
              using hmain.2.2.2.2
        · exact hmain.1 D hD hft
      · simpa [filesIn] using hmain.2.2.2.1
      · simpa [filesIn] using hmain.2.2.2.2

/-- C6: every directory node `D` of the output of `build_diff_tree` has
`added` equal to the sum of its children's `added` counts, `removed` equal to
the sum of the children's `removed` counts, and equally the sums over all of
`D`'s file-typed descendants (counts read with `None` as `0`; after the
propagator every reachable node carries `Some`). -/
theorem C6_directory_count_sums (fromM toM : FileMap) (t : Frac)
    (D : DiffFileEntry)
    (hD : D ∈ subtreeNodes (build_diff_tree fromM toM t))
    (hft : D.file_type = FileType.Directory) :
    addedCount D = (D.children.map addedCount).sum ∧
    removedCount D = (D.children.map removedCount).sum ∧
    addedCount D = ((filesIn D).map addedCount).sum ∧
    removedCount D = ((filesIn D).map removedCount).sum := by
  have hb : build_diff_tree fromM toM t =
      (compute_node_stats fromM toM
        (detect_renames_optimized fromM toM (clamp01 t)
          ((collect_file_paths fromM).filter
            (fun p => !(collect_file_paths toM).contains p))
          ((collect_file_paths toM).filter
            (fun p => !(collect_file_paths fromM).contains p)))
        (collect_directories fromM) (collect_directories toM)
        (build_tree_structure fromM toM (fromM.map (fun e => e.1))
          (toM.map (fun e => e.1)) (collect_directories fromM)
          (collect_directories toM))).1 := rfl
  rw [hb] at hD
  exact (compute_sums fromM toM _ _ _ _
    (fun n hn => build_tree_structure_placeholder _ _ _ _ _ _ n hn)).1 D hD hft

/-- C6 witness: the root directory of a concrete build satisfies the sum
equations. -/
theorem C6_witness :
    (build_diff_tree [] [("dir/new.txt", fileEntry "alpha\nbeta\n")] ⟨7, 10⟩) ∈
      subtreeNodes
        (build_diff_tree [] [("dir/new.txt", fileEntry "alpha\nbeta\n")] ⟨7, 10⟩) ∧
    (build_diff_tree [] [("dir/new.txt", fileEntry "alpha\nbeta\n")]
        ⟨7, 10⟩).file_type = FileType.Directory ∧
    (addedCount (build_diff_tree [] [("dir/new.txt", fileEntry "alpha\nbeta\n")] ⟨7, 10⟩) =
      (((build_diff_tree [] [("dir/new.txt", fileEntry "alpha\nbeta\n")]
        ⟨7, 10⟩).children).map addedCount).sum ∧
     removedCount (build_diff_tree [] [("dir/new.txt", fileEntry "alpha\nbeta\n")] ⟨7, 10⟩) =
      (((build_diff_tree [] [("dir/new.txt", fileEntry "alpha\nbeta\n")]
        ⟨7, 10⟩).children).map removedCount).sum ∧
     addedCount (build_diff_tree [] [("dir/new.txt", fileEntry "alpha\nbeta\n")] ⟨7, 10⟩) =
      ((filesIn (build_diff_tree [] [("dir/new.txt", fileEntry "alpha\nbeta\n")]
        ⟨7, 10⟩)).map addedCount).sum ∧
     removedCount (build_diff_tree [] [("dir/new.txt", fileEntry "alpha\nbeta\n")] ⟨7, 10⟩) =
      ((filesIn (build_diff_tree [] [("dir/new.txt", fileEntry "alpha\nbeta\n")]
        ⟨7, 10⟩)).map removedCount).sum) :=
  ⟨self_mem_subtreeNodes _, by decide,
    C6_directory_count_sums [] [("dir/new.txt", fileEntry "alpha\nbeta\n")] ⟨7, 10⟩
      _ (self_mem_subtreeNodes _) (by decide)⟩

/-! ## C5: directory status classification -/

theorem computeChildren_fst (fM tM : FileMap) (rn : List (String × String))
    (fD tD : List String) :
    ∀ L : List DiffFileEntry,
      (computeChildren fM tM rn fD tD L).1 =
        L.map (fun c => (compute_node_stats fM tM rn fD tD c).1) := by
  intro L
  induction L with
  | nil => rfl
  | cons c L ihL => simp [computeChildren, ihL]

theorem filesChildlessList_mem {L : List DiffFileEntry}
    (h : filesChildlessList L = true) {c : DiffFileEntry} (hc : c ∈ L) :
    filesChildless c = true := by
  induction L with
  | nil => cases hc
  | cons d L ihL =>
    rw [filesChildlessList, Bool.and_eq_true] at h
    rcases List.mem_cons.mp hc with hc | hc
    · subst hc
      exact h.1
    · exact ihL h.2 hc

/-- The four-way classification of `dirStatus`, in propositional form. -/
theorem dirStatus_spec (fD tD : List String) (p : String)
    (cs : List DiffFileEntry) :
    (dirStatus fD tD p cs = DiffStatus.Added ↔
      ¬(p = "/" ∨ p ∈ fD) ∧ (p = "/" ∨ p ∈ tD)) ∧
    (dirStatus fD tD p cs = DiffStatus.Removed ↔
      (p = "/" ∨ p ∈ fD) ∧ ¬(p = "/" ∨ p ∈ tD)) ∧
    (((p = "/" ∨ p ∈ fD) ↔ (p = "/" ∨ p ∈ tD)) →
      ((dirStatus fD tD p cs = DiffStatus.Unchanged ↔
        ∀ c ∈ cs, c.status = DiffStatus.Unchanged) ∧
       (dirStatus fD tD p cs = DiffStatus.Modified ↔
        ¬ ∀ c ∈ cs, c.status = DiffStatus.Unchanged))) ∧
    dirStatus fD tD p cs ≠ DiffStatus.Renamed := by
  have hBf : ((p == "/" || fD.contains p) = true) ↔ (p = "/" ∨ p ∈ fD) := by
    simp
  have hBt : ((p == "/" || tD.contains p) = true) ↔ (p = "/" ∨ p ∈ tD) := by
    simp
  have hAll : (cs.all (fun c => c.status == DiffStatus.Unchanged) = true) ↔
      (∀ c ∈ cs, c.status = DiffStatus.Unchanged) := by
    simp [List.all_eq_true]
  rw [dirStatus]
  cases hf : (p == "/" || fD.contains p) <;>
    cases ht2 : (p == "/" || tD.contains p) <;>
    cases hall : cs.all (fun c => c.status == DiffStatus.Unchanged) <;>
    simp_all

/-- Every directory node of a propagated (files-childless) tree carries
exactly the status `dirStatus` computes from its own path and (computed)
children. -/
theorem compute_status_eq (fM tM : FileMap) (rn : List (String × String))
    (fD tD : List String) :
    ∀ t : DiffFileEntry, filesChildless t = true →
      ∀ D ∈ subtreeNodes (compute_node_stats fM tM rn fD tD t).1,
        D.file_type = FileType.Directory →
          D.status = dirStatus fD tD D.path D.children := by
  intro t
  induction t using treeInd with
  | h p op ft st a r cs ih =>
    intro hcl D hD hft
    cases ft with
    | File =>
      have hempty : cs = [] := by
        rw [filesChildless, Bool.and_eq_true] at hcl
        have := hcl.1
        simpa [List.isEmpty_iff] using this
      subst hempty
      obtain ⟨op2, st2, x, y, heq⟩ :=
        compute_file_shape fM tM rn fD tD p op st a r []
      rw [heq] at hD
      rw [subtreeNodes_expand] at hD
      rcases List.mem_cons.mp hD with hD | hD
      · subst hD
        simp [DiffFileEntry.file_type] at hft
      · simp [subtreeNodesList] at hD
    | Directory =>
      have hclcs : filesChildlessList cs = true := by
        rw [filesChildless, Bool.and_eq_true] at hcl
        exact hcl.2
      rw [compute_dir_shape] at hD
      rw [subtreeNodes_expand] at hD
      rcases List.mem_cons.mp hD with hD | hD
      · subst hD
        simp [DiffFileEntry.status, DiffFileEntry.path, DiffFileEntry.children]
      · rw [computeChildren_fst] at hD
        rcases mem_subtreeNodesList.mp hD with ⟨c', hc', hDc⟩
        rcases List.mem_map.mp hc' with ⟨c, hc, rfl⟩
        exact ih c hc (filesChildlessList_mem hclcs hc) D hDc hft

/-- C5: in the output of `build_diff_tree`, a directory node at path `p` with
`in_from = (p = "/" ∨ p ∈ from_dirs)` and `in_to = (p = "/" ∨ p ∈ to_dirs)`
is `Added` iff `¬in_from ∧ in_to`, `Removed` iff `in_from ∧ ¬in_to`,
otherwise `Unchanged` exactly when every child is `Unchanged` (`Renamed`
children count as not-Unchanged) and `Modified` exactly otherwise; `Renamed`
never appears on a directory.  The hypothesis `H` excludes the degenerate
inputs in which a `File`-typed path is a strict prefix of another path (such
nodes acquire children the propagator never visits). -/
theorem C5_directory_status (fromM toM : FileMap) (t : Frac)
    (D : DiffFileEntry)
    (H : filesChildless (build_tree_structure fromM toM
      (fromM.map (fun e => e.1)) (toM.map (fun e => e.1))
      (collect_directories fromM) (collect_directories toM)) = true)
    (hD : D ∈ subtreeNodes (build_diff_tree fromM toM t))
    (hft : D.file_type = FileType.Directory) :
    (D.status = DiffStatus.Added ↔
      ¬(D.path = "/" ∨ D.path ∈ collect_directories fromM) ∧
        (D.path = "/" ∨ D.path ∈ collect_directories toM)) ∧
    (D.status = DiffStatus.Removed ↔
      (D.path = "/" ∨ D.path ∈ collect_directories fromM) ∧
        ¬(D.path = "/" ∨ D.path ∈ collect_directories toM)) ∧
    (((D.path = "/" ∨ D.path ∈ collect_directories fromM) ↔
        (D.path = "/" ∨ D.path ∈ collect_directories toM)) →
      ((D.status = DiffStatus.Unchanged ↔
        ∀ c ∈ D.children, c.status = DiffStatus.Unchanged) ∧
       (D.status = DiffStatus.Modified ↔
        ¬ ∀ c ∈ D.children, c.status = DiffStatus.Unchanged))) ∧
    D.status ≠ DiffStatus.Renamed := by
  have hb : build_diff_tree fromM toM t =
      (compute_node_stats fromM toM
        (detect_renames_optimized fromM toM (clamp01 t)
          ((collect_file_paths fromM).filter
            (fun p => !(collect_file_paths toM).contains p))
          ((collect_file_paths toM).filter
            (fun p => !(collect_file_paths fromM).contains p)))
        (collect_directories fromM) (collect_directories toM)
        (build_tree_structure fromM toM (fromM.map (fun e => e.1))
          (toM.map (fun e => e.1)) (collect_directories fromM)
          (collect_directories toM))).1 := rfl
  rw [hb] at hD
  have hst := compute_status_eq fromM toM _ _ _ _ H D hD hft
  rw [hst]
  exact dirStatus_spec (collect_directories fromM) (collect_directories toM)
    D.path D.children

/-- C5 witness: the root of a concrete build, with the childless-files
hypothesis discharged by evaluation. -/
theorem C5_witness :
    (filesChildless (build_tree_structure []
      [("dir/new.txt", fileEntry "alpha\nbeta\n")]
      (([] : FileMap).map (fun e => e.1))
      ([("dir/new.txt", fileEntry "alpha\nbeta\n")].map (fun e => e.1))
      (collect_directories [])
      (collect_directories [("dir/new.txt", fileEntry "alpha\nbeta\n")])) = true) ∧
    ((build_diff_tree [] [("dir/new.txt", fileEntry "alpha\nbeta\n")]
        ⟨7, 10⟩).status ≠ DiffStatus.Renamed) :=
  ⟨by decide,
    (C5_directory_status [] [("dir/new.txt", fileEntry "alpha\nbeta\n")] ⟨7, 10⟩
      _ (by decide) (self_mem_subtreeNodes _) (by decide)).2.2.2⟩

/-! ## C4: when is a node `Unchanged`? -/

/-- C4 counterexample: with `from = {"d": Directory}`, `to = {}` the directory
node `d` (and the root) has no file descendants at all — so "all file
descendants Unchanged" holds vacuously — yet its status is `Removed` (the
root's `Modified`), refuting the claimed equivalence. -/
theorem C4_counterexample_one_sided_empty_dir :
    ¬ (∀ n ∈ subtreeNodes (build_diff_tree [("d", dirEntry)] [] ⟨7, 10⟩),
        (n.status = DiffStatus.Unchanged ↔
          ∀ f ∈ filesIn n, f.status = DiffStatus.Unchanged)) := by
  decide

theorem dirStatus_unchanged_iff (fD tD : List String) (p : String)
    (cs : List DiffFileEntry) :
    dirStatus fD tD p cs = DiffStatus.Unchanged ↔
      (((p = "/" ∨ p ∈ fD) ↔ (p = "/" ∨ p ∈ tD)) ∧
        ∀ c ∈ cs, c.status = DiffStatus.Unchanged) := by
  have hBf : ((p == "/" || fD.contains p) = true) ↔ (p = "/" ∨ p ∈ fD) := by
    simp
  have hBt : ((p == "/" || tD.contains p) = true) ↔ (p = "/" ∨ p ∈ tD) := by
    simp
  have hAll : (cs.all (fun c => c.status == DiffStatus.Unchanged) = true) ↔
      (∀ c ∈ cs, c.status = DiffStatus.Unchanged) := by
    simp [List.all_eq_true]
  rw [dirStatus]
  cases hf : (p == "/" || fD.contains p) <;>
    cases ht2 : (p == "/" || tD.contains p) <;>
    cases hall : cs.all (fun c => c.status == DiffStatus.Unchanged) <;>
    simp_all

/-- The side condition on a node the amended C4 uses: every directory in its
subtree (itself included) exists on both sides or on neither. -/
def SidesBalanced (fD tD : List String) (n : DiffFileEntry) : Prop :=
  ∀ D ∈ subtreeNodes n, D.file_type = FileType.Directory →
    ((D.path = "/" ∨ D.path ∈ fD) ↔ (D.path = "/" ∨ D.path ∈ tD))

/-- The amended-C4 induction: on a files-childless tree, a propagated node is
`Unchanged` exactly when all its file descendants are `Unchanged` and every
directory in its subtree exists on both sides or neither. -/
theorem compute_unchanged_char (fM tM : FileMap) (rn : List (String × String))
    (fD tD : List String) :
    ∀ t : DiffFileEntry, filesChildless t = true →
      ∀ n ∈ subtreeNodes (compute_node_stats fM tM rn fD tD t).1,
        (n.status = DiffStatus.Unchanged ↔
          ((∀ f ∈ filesIn n, f.status = DiffStatus.Unchanged) ∧
            SidesBalanced fD tD n)) := by
  intro t
  induction t using treeInd with
  | h p op ft st a r cs ih =>
    intro hcl n hn
    cases ft with
    | File =>
      have hempty : cs = [] := by
        rw [filesChildless, Bool.and_eq_true] at hcl
        simpa [List.isEmpty_iff] using hcl.1
      subst hempty
      obtain ⟨op2, st2, x, y, heq⟩ :=
        compute_file_shape fM tM rn fD tD p op st a r []
      rw [heq] at hn
      rw [subtreeNodes_expand] at hn
      rcases List.mem_cons.mp hn with hn | hn
      · subst hn
        constructor
        · intro hu
          refine ⟨?_, ?_⟩
          · intro f hf
            simp only [filesIn] at hf
            rcases List.mem_cons.mp hf with hf | hf
            · subst hf
              exact hu
            · cases hf
          · intro D hD hft
            rw [subtreeNodes_expand] at hD
            rcases List.mem_cons.mp hD with hD | hD
            · subst hD
              simp [DiffFileEntry.file_type] at hft
            · simp [subtreeNodesList] at hD
        · rintro ⟨hF, _⟩
          exact hF _ (by simp [filesIn])
      · simp [subtreeNodesList] at hn
    | Directory =>
      have hclcs : filesChildlessList cs = true := by
        rw [filesChildless, Bool.and_eq_true] at hcl
        exact hcl.2
      have hchar : ∀ c' ∈ (computeChildren fM tM rn fD tD cs).1,
          ∀ m ∈ subtreeNodes c',
            (m.status = DiffStatus.Unchanged ↔
              ((∀ f ∈ filesIn m, f.status = DiffStatus.Unchanged) ∧
                SidesBalanced fD tD m)) := by
        intro c' hc' m hm
        rw [computeChildren_fst] at hc'
        rcases List.mem_map.mp hc' with ⟨c, hc, rfl⟩
        exact ih c hc (filesChildlessList_mem hclcs hc) m hm
      rw [compute_dir_shape] at hn
      rw [subtreeNodes_expand] at hn
      rcases List.mem_cons.mp hn with hn | hn
      · subst hn
        rw [DiffFileEntry.status, dirStatus_unchanged_iff]
        constructor
        · rintro ⟨hS, hU⟩
          refine ⟨?_, ?_⟩
          · intro f hf
            simp only [filesIn] at hf
            rcases mem_filesInList.mp hf with ⟨c', hc', hfc⟩
            exact ((hchar c' hc' c' (self_mem_subtreeNodes c')).mp
              (hU c' hc')).1 f hfc
          · intro D hD hft
            rw [subtreeNodes_expand] at hD
            rcases List.mem_cons.mp hD with hD | hD
            · subst hD
              simpa [DiffFileEntry.path] using hS
            · rcases mem_subtreeNodesList.mp hD with ⟨c', hc', hDc⟩
              exact ((hchar c' hc' c' (self_mem_subtreeNodes c')).mp
                (hU c' hc')).2 D hDc hft
        · rintro ⟨hF, hSB⟩
          refine ⟨?_, ?_⟩
          · have := hSB _ (self_mem_subtreeNodes _) (by
              simp [DiffFileEntry.file_type])
            simpa [DiffFileEntry.path] using this
          · intro c' hc'
            apply (hchar c' hc' c' (self_mem_subtreeNodes c')).mpr
            refine ⟨?_, ?_⟩
            · intro f hf
              exact hF f (by
                simp only [filesIn]
                exact mem_filesInList.mpr ⟨c', hc', hf⟩)
            · intro D hDc hft
              refine hSB D ?_ hft
              rw [subtreeNodes_expand]
              exact List.mem_cons_of_mem _
                (mem_subtreeNodesList.mpr ⟨c', hc', hDc⟩)
      · rcases mem_subtreeNodesList.mp hn with ⟨c', hc', hnc⟩
        exact hchar c' hc' n hnc

/-- C4 amended: a node of the output of `build_diff_tree` is `Unchanged` iff
all of its file-typed descendants are `Unchanged` AND every directory in its
subtree (itself included) is present in `from_dirs` iff present in `to_dirs`
(the root path `"/"` counting as present on both sides).  The second conjunct
is forced by the counterexample: a directory existing on only one side is
`Added`/`Removed` even when it has no file descendants.  `H` as in C5. -/
theorem C4_amended_unchanged_iff (fromM toM : FileMap) (t : Frac)
    (n : DiffFileEntry)
    (H : filesChildless (build_tree_structure fromM toM
      (fromM.map (fun e => e.1)) (toM.map (fun e => e.1))
      (collect_directories fromM) (collect_directories toM)) = true)
    (hn : n ∈ subtreeNodes (build_diff_tree fromM toM t)) :
    n.status = DiffStatus.Unchanged ↔
      ((∀ f ∈ filesIn n, f.status = DiffStatus.Unchanged) ∧
        SidesBalanced (collect_directories fromM) (collect_directories toM) n) := by
  have hb : build_diff_tree fromM toM t =
      (compute_node_stats fromM toM
        (detect_renames_optimized fromM toM (clamp01 t)
          ((collect_file_paths fromM).filter
            (fun p => !(collect_file_paths toM).contains p))
          ((collect_file_paths toM).filter
            (fun p => !(collect_file_paths fromM).contains p)))
        (collect_directories fromM) (collect_directories toM)
        (build_tree_structure fromM toM (fromM.map (fun e => e.1))
          (toM.map (fun e => e.1)) (collect_directories fromM)
          (collect_directories toM))).1 := rfl
  rw [hb] at hn
  exact compute_unchanged_char fromM toM _ _ _ _ H n hn

/-- C4 amended, witness: an unchanged singleton input at the root node. -/
theorem C4_amended_witness :
    (filesChildless (build_tree_structure [("a.txt", fileEntry "x\n")]
      [("a.txt", fileEntry "x\n")]
      ([("a.txt", fileEntry "x\n")].map (fun e => e.1))
      ([("a.txt", fileEntry "x\n")].map (fun e => e.1))
      (collect_directories [("a.txt", fileEntry "x\n")])
      (collect_directories [("a.txt", fileEntry "x\n")])) = true) ∧
    ((build_diff_tree [("a.txt", fileEntry "x\n")] [("a.txt", fileEntry "x\n")]
        ⟨7, 10⟩).status = DiffStatus.Unchanged ↔
      ((∀ f ∈ filesIn (build_diff_tree [("a.txt", fileEntry "x\n")]
          [("a.txt", fileEntry "x\n")] ⟨7, 10⟩),
          f.status = DiffStatus.Unchanged) ∧
        SidesBalanced (collect_directories [("a.txt", fileEntry "x\n")])
          (collect_directories [("a.txt", fileEntry "x\n")])
          (build_diff_tree [("a.txt", fileEntry "x\n")]
            [("a.txt", fileEntry "x\n")] ⟨7, 10⟩))) :=
  ⟨by decide,
    C4_amended_unchanged_iff [("a.txt", fileEntry "x\n")]
      [("a.txt", fileEntry "x\n")] ⟨7, 10⟩ _ (by decide)
      (self_mem_subtreeNodes _)⟩

/-! ## C3: phase-2 candidate selection -/

/-- Spec-side reading of one phase-2 candidate test: still unused, content
present, passes the length and Jaccard pre-filters, and the (boosted) score
clears the threshold.  `phase2Step` is proved to act exactly by this test. -/
def phase2Qualifies (fromM : FileMap) (t : Frac) (addPath ac : String)
    (used : List String) (d : String) : Bool :=
  !used.contains d &&
    (match file_content fromM d with
     | none => false
     | some dc =>
       can_be_similar t dc ac &&
         !(jaccard_similarity (lineSet ac) (lineSet dc)).flt (t.fmul ⟨7, 10⟩) &&
         t.fle (adjustedSimilarity d addPath dc ac))

/-- The (boosted) score of a phase-2 candidate. -/
def candScore (fromM : FileMap) (addPath ac : String) (d : String) : Frac :=
  match file_content fromM d with
  | some dc => adjustedSimilarity d addPath dc ac
  | none => ⟨0, 1⟩

/-- The abstract best-candidate step: take the candidate when it qualifies
and strictly beats the current best. -/
def bestStep (Q : String → Bool) (sc : String → Frac)
    (best : Option (String × Frac)) (d : String) : Option (String × Frac) :=
  if Q d then
    match best with
    | some (q, bs) => if bs.flt (sc d) then some (d, sc d) else best
    | none => some (d, sc d)
  else best

theorem phase2Step_char (fromM : FileMap) (t : Frac) (addPath ac : String)
    (used : List String) (best : Option (String × Frac)) (d : String) :
    phase2Step fromM t addPath ac used best d =
      bestStep (phase2Qualifies fromM t addPath ac used)
        (candScore fromM addPath ac) best d := by
  cases hu : used.contains d
  · cases hc : file_content fromM d
    · simp [phase2Step, bestStep, phase2Qualifies, hu, hc]
    · rename_i dc
      cases h1 : can_be_similar t dc ac
      · simp [phase2Step, bestStep, phase2Qualifies, hu, hc, h1]
      · cases h2 : (jaccard_similarity (lineSet ac) (lineSet dc)).flt (t.fmul ⟨7, 10⟩)
        · cases h3 : t.fle (adjustedSimilarity d addPath dc ac)
          · simp [phase2Step, bestStep, phase2Qualifies, candScore, hu, hc, h1, h2, h3]
          · simp [phase2Step, bestStep, phase2Qualifies, candScore, hu, hc, h1, h2, h3]
        · simp [phase2Step, bestStep, phase2Qualifies, hu, hc, h1, h2]
  · have hm : d ∈ used := by simpa using hu
    simp [phase2Step, bestStep, phase2Qualifies, hu, hm]

theorem foldl_ext {α β : Type} (f g : β → α → β) (h : ∀ b a, f b a = g b a) :
    ∀ (l : List α) (i : β), l.foldl f i = l.foldl g i := by
  intro l
  induction l with
  | nil => intro i; rfl
  | cons a l ih => intro i; rw [List.foldl_cons, List.foldl_cons, h, ih]

theorem phase2Scan_eq_bestStep (fromM : FileMap) (t : Frac)
    (addPath ac : String) (deleted used : List String) :
    phase2Scan fromM t addPath ac deleted used =
      deleted.foldl
        (bestStep (phase2Qualifies fromM t addPath ac used)
          (candScore fromM addPath ac)) none := by
  rw [phase2Scan]
  exact foldl_ext _ _ (phase2Step_char fromM t addPath ac used) deleted none

/-! Denominator positivity of every score the algorithm produces. -/

theorem calculate_similarity_den_pos (f a : String) :
    0 < (calculate_similarity f a).den := by
  rw [calculate_similarity]
  split
  · exact Int.one_pos
  · split
    · exact Int.one_pos
    · simp only [natDivFrac]
      exact_mod_cast Nat.lt_of_lt_of_le Nat.one_pos (Nat.le_max_right _ 1)

theorem adjustedSimilarity_den_pos (d aP dc ac : String) :
    0 < (adjustedSimilarity d aP dc ac).den := by
  rw [adjustedSimilarity]
  split
  · simp only [Frac.fmul]
    have h := calculate_similarity_den_pos dc ac
    positivity
  · exact calculate_similarity_den_pos dc ac

theorem candScore_den_pos (fromM : FileMap) (aP ac d : String) :
    0 < (candScore fromM aP ac d).den := by
  cases hc : file_content fromM d <;>
    simp [candScore, hc, adjustedSimilarity_den_pos]

/-! Order facts about the cross-multiplication comparisons, under the
positive denominators the scores carry. -/

theorem Frac.fle_refl (a : Frac) : a.fle a = true := by
  simp [Frac.fle]

theorem Frac.fle_of_flt {a b : Frac} (h : a.flt b = true) : a.fle b = true := by
  simp only [Frac.flt, decide_eq_true_eq] at h
  simp only [Frac.fle, decide_eq_true_eq]
  exact le_of_lt h

theorem Frac.flt_eq_not_fle (a b : Frac) : a.flt b = !(b.fle a) := by
  by_cases h : a.num * b.den < b.num * a.den
  · have h2 : ¬ (b.num * a.den ≤ a.num * b.den) := not_le.mpr h
    simp [Frac.flt, Frac.fle, h, h2]
  · have h2 : b.num * a.den ≤ a.num * b.den := not_lt.mp h
    simp [Frac.flt, Frac.fle, h, h2]

theorem Frac.fle_trans' {a b c : Frac} (ha : 0 < a.den) (hb : 0 < b.den)
    (hc : 0 < c.den) (h1 : a.fle b = true) (h2 : b.fle c = true) :
    a.fle c = true := by
  simp only [Frac.fle, decide_eq_true_eq] at h1 h2 ⊢
  have k1 := mul_le_mul_of_nonneg_right h1 (le_of_lt hc)
  have k2 := mul_le_mul_of_nonneg_right h2 (le_of_lt ha)
  have k : a.num * c.den * b.den ≤ c.num * a.den * b.den := by nlinarith
  exact le_of_mul_le_mul_right k hb

theorem Frac.flt_of_flt_of_fle {a b c : Frac} (ha : 0 < a.den) (hb : 0 < b.den)
    (hc : 0 < c.den) (h1 : a.flt b = true) (h2 : b.fle c = true) :
    a.flt c = true := by
  simp only [Frac.flt, decide_eq_true_eq] at h1 ⊢
  simp only [Frac.fle, decide_eq_true_eq] at h2
  have k1 := mul_lt_mul_of_pos_right h1 hc
  have k2 := mul_le_mul_of_nonneg_right h2 (le_of_lt ha)
  have k : a.num * c.den * b.den < c.num * a.den * b.den := by nlinarith
  exact lt_of_mul_lt_mul_right k (le_of_lt hb)

theorem Frac.flt_of_fle_of_flt {a b c : Frac} (ha : 0 < a.den) (hb : 0 < b.den)
    (hc : 0 < c.den) (h1 : a.fle b = true) (h2 : b.flt c = true) :
    a.flt c = true := by
  simp only [Frac.fle, decide_eq_true_eq] at h1
  simp only [Frac.flt, decide_eq_true_eq] at h2 ⊢
  have k1 := mul_le_mul_of_nonneg_right h1 (le_of_lt hc)
  have k2 := mul_lt_mul_of_pos_right h2 ha
  have k : a.num * c.den * b.den < c.num * a.den * b.den := by nlinarith
  exact lt_of_mul_lt_mul_right k (le_of_lt hb)

theorem Frac.flt_trans' {a b c : Frac} (ha : 0 < a.den) (hb : 0 < b.den)
    (hc : 0 < c.den) (h1 : a.flt b = true) (h2 : b.flt c = true) :
    a.flt c = true :=
  Frac.flt_of_flt_of_fle ha hb hc h1 (Frac.fle_of_flt h2)

/-! The behaviour of a `bestStep` fold: the survivor is a qualifying
candidate carrying its own score, no qualifying candidate scores higher, and
every qualifying candidate strictly earlier in iteration order scores
strictly lower (so on ties the first-seen wins). -/

theorem bestStep_foldl_some_ne_none (Q : String → Bool) (sc : String → Frac) :
    ∀ (l : List String) (p : String) (s : Frac),
      l.foldl (bestStep Q sc) (some (p, s)) ≠ none := by
  intro l
  induction l with
  | nil =>
    intro p s
    simp
  | cons d l ih =>
    intro p s
    rw [List.foldl_cons, bestStep]
    by_cases hq : Q d = true
    · rw [if_pos hq]
      by_cases hlt : s.flt (sc d) = true
      · rw [if_pos hlt]
        exact ih d (sc d)
      · rw [if_neg hlt]
        exact ih p s
    · rw [if_neg hq]
      exact ih p s

theorem bestStep_foldl_none_iff (Q : String → Bool) (sc : String → Frac) :
    ∀ l : List String,
      (l.foldl (bestStep Q sc) none = none ↔ ∀ d ∈ l, Q d = false) := by
  intro l
  induction l with
  | nil => simp
  | cons d l ih =>
    rw [List.foldl_cons, bestStep]
    by_cases hq : Q d = true
    · rw [if_pos hq]
      constructor
      · intro h
        exact absurd h (bestStep_foldl_some_ne_none Q sc l d (sc d))
      · intro h
        exact absurd hq (by simp [h d (List.mem_cons_self d l)])
    · rw [if_neg hq]
      rw [ih]
      constructor
      · intro h e he
        rcases List.mem_cons.mp he with rfl | he
        · exact Bool.eq_false_iff.mpr hq
        · exact h e he
      · intro h e he
        exact h e (List.mem_cons_of_mem d he)

theorem bestStep_foldl_some_shape (Q : String → Bool) (sc : String → Frac) :
    ∀ (l : List String) (p : String) (s : Frac) (q : String) (s' : Frac),
      l.foldl (bestStep Q sc) (some (p, s)) = some (q, s') →
        ((q = p ∧ s' = s) ∨ (q ∈ l ∧ Q q = true ∧ s' = sc q)) := by
  intro l
  induction l with
  | nil =>
    intro p s q s' h
    simp at h
    exact Or.inl ⟨h.1.symm, h.2.symm⟩
  | cons d l ih =>
    intro p s q s' h
    rw [List.foldl_cons, bestStep] at h
    by_cases hq : Q d = true
    · rw [if_pos hq] at h
      by_cases hlt : s.flt (sc d) = true
      · rw [if_pos hlt] at h
        rcases ih d (sc d) q s' h with ⟨rfl, rfl⟩ | ⟨hm, hQ, hs⟩
        · exact Or.inr ⟨List.mem_cons_self _ _, hq, rfl⟩
        · exact Or.inr ⟨List.mem_cons_of_mem d hm, hQ, hs⟩
      · rw [if_neg hlt] at h
        rcases ih p s q s' h with h | ⟨hm, hQ, hs⟩
        · exact Or.inl h
        · exact Or.inr ⟨List.mem_cons_of_mem d hm, hQ, hs⟩
    · rw [if_neg hq] at h
      rcases ih p s q s' h with h | ⟨hm, hQ, hs⟩
      · exact Or.inl h
      · exact Or.inr ⟨List.mem_cons_of_mem d hm, hQ, hs⟩

theorem bestStep_foldl_none_shape (Q : String → Bool) (sc : String → Frac) :
    ∀ (l : List String) (q : String) (s' : Frac),
      l.foldl (bestStep Q sc) none = some (q, s') →
        (q ∈ l ∧ Q q = true ∧ s' = sc q) := by
  intro l
  induction l with
  | nil =>
    intro q s' h
    simp at h
  | cons d l ih =>
    intro q s' h
    rw [List.foldl_cons, bestStep] at h
    by_cases hq : Q d = true
    · rw [if_pos hq] at h
      rcases bestStep_foldl_some_shape Q sc l d (sc d) q s' h with ⟨rfl, rfl⟩ | ⟨hm, hQ, hs⟩
      · exact ⟨List.mem_cons_self _ _, hq, rfl⟩
      · exact ⟨List.mem_cons_of_mem d hm, hQ, hs⟩
    · rw [if_neg hq] at h
      rcases ih q s' h with ⟨hm, hQ, hs⟩
      exact ⟨List.mem_cons_of_mem d hm, hQ, hs⟩

theorem bestStep_foldl_some_max (Q : String → Bool) (sc : String → Frac)
    (hden : ∀ d, Q d = true → 0 < (sc d).den) :
    ∀ (l : List String) (p : String) (s : Frac), 0 < s.den →
      ∀ (q : String) (s' : Frac),
        l.foldl (bestStep Q sc) (some (p, s)) = some (q, s') →
          (0 < s'.den ∧ s.fle s' = true ∧
            ∀ d ∈ l, Q d = true → (sc d).fle s' = true) := by
  intro l
  induction l with
  | nil =>
    intro p s hs q s' h
    simp at h
    refine ⟨h.2 ▸ hs, h.2 ▸ Frac.fle_refl s, ?_⟩
    intro d hd
    cases hd
  | cons d l ih =>
    intro p s hs q s' h
    rw [List.foldl_cons, bestStep] at h
    by_cases hq : Q d = true
    · rw [if_pos hq] at h
      by_cases hlt : s.flt (sc d) = true
      · rw [if_pos hlt] at h
        obtain ⟨hs', hfle, hmax⟩ := ih d (sc d) (hden d hq) q s' h
        refine ⟨hs', ?_, ?_⟩
        · exact Frac.fle_trans' hs (hden d hq) hs' (Frac.fle_of_flt hlt) hfle
        · intro e he hQe
          rcases List.mem_cons.mp he with rfl | he
          · exact hfle
          · exact hmax e he hQe
      · rw [if_neg hlt] at h
        obtain ⟨hs', hfle, hmax⟩ := ih p s hs q s' h
        refine ⟨hs', hfle, ?_⟩
        intro e he hQe
        rcases List.mem_cons.mp he with rfl | he
        · have hb : s.flt (sc e) = false := Bool.eq_false_iff.mpr hlt
          rw [Frac.flt_eq_not_fle] at hb
          have h1 : (sc e).fle s = true := by
            revert hb
            cases (sc e).fle s <;> simp
          exact Frac.fle_trans' (hden e hQe) hs hs' h1 hfle
        · exact hmax e he hQe
    · rw [if_neg hq] at h
      obtain ⟨hs', hfle, hmax⟩ := ih p s hs q s' h
      refine ⟨hs', hfle, ?_⟩
      intro e he hQe
      rcases List.mem_cons.mp he with rfl | he
      · exact absurd hQe (by simp [hq])
      · exact hmax e he hQe

theorem bestStep_foldl_none_max (Q : String → Bool) (sc : String → Frac)
    (hden : ∀ d, Q d = true → 0 < (sc d).den) :
    ∀ (l : List String) (q : String) (s' : Frac),
      l.foldl (bestStep Q sc) none = some (q, s') →
        (0 < s'.den ∧ ∀ d ∈ l, Q d = true → (sc d).fle s' = true) := by
  intro l
  induction l with
  | nil =>
    intro q s' h
    simp at h
  | cons d l ih =>
    intro q s' h
    rw [List.foldl_cons, bestStep] at h
    by_cases hq : Q d = true
    · rw [if_pos hq] at h
      obtain ⟨hs', hfle, hmax⟩ :=
        bestStep_foldl_some_max Q sc hden l d (sc d) (hden d hq) q s' h
      refine ⟨hs', ?_⟩
      intro e he hQe
      rcases List.mem_cons.mp he with rfl | he
      · exact hfle
      · exact hmax e he hQe
    · rw [if_neg hq] at h
      obtain ⟨hs', hmax⟩ := ih q s' h
      refine ⟨hs', ?_⟩
      intro e he hQe
      rcases List.mem_cons.mp he with rfl | he
      · exact absurd hQe (by simp [hq])
      · exact hmax e he hQe

theorem bestStep_foldl_some_first (Q : String → Bool) (sc : String → Frac)
    (hden : ∀ d, Q d = true → 0 < (sc d).den) :
    ∀ (l : List String) (p : String) (s : Frac), 0 < s.den →
      ∀ (q : String) (s' : Frac),
        l.foldl (bestStep Q sc) (some (p, s)) = some (q, s') →
          ((q = p ∧ s' = s) ∨
            (∃ l1 l2, l = l1 ++ q :: l2 ∧ Q q = true ∧ s' = sc q ∧
              s.flt s' = true ∧
              ∀ d ∈ l1, Q d = true → (sc d).flt s' = true)) := by
  intro l
  induction l with
  | nil =>
    intro p s hs q s' h
    simp at h
    exact Or.inl ⟨h.1.symm, h.2.symm⟩
  | cons d l ih =>
    intro p s hs q s' h
    have hs'pos : 0 < s'.den := by
      rcases bestStep_foldl_some_shape Q sc (d :: l) p s q s'
          (by rw [List.foldl_cons, bestStep] at h ⊢; exact h) with ⟨_, rfl⟩ | ⟨_, hQ, rfl⟩
      · exact hs
      · exact hden q hQ
    rw [List.foldl_cons, bestStep] at h
    by_cases hq : Q d = true
    · rw [if_pos hq] at h
      by_cases hlt : s.flt (sc d) = true
      · rw [if_pos hlt] at h
        rcases ih d (sc d) (hden d hq) q s' h with ⟨rfl, rfl⟩ |
            ⟨l1, l2, heq, hQq, hseq, hacc, hl1⟩
        · exact Or.inr ⟨[], l, rfl, hq, rfl, hlt, by intro e he; cases he⟩
        · refine Or.inr ⟨d :: l1, l2, by rw [heq]; rfl, hQq, hseq, ?_, ?_⟩
          · exact Frac.flt_trans' hs (hden d hq) hs'pos hlt hacc
          · intro e he hQe
            rcases List.mem_cons.mp he with rfl | he
            · exact hacc
            · exact hl1 e he hQe
      · rw [if_neg hlt] at h
        rcases ih p s hs q s' h with h' | ⟨l1, l2, heq, hQq, hseq, hsflt, hl1⟩
        · exact Or.inl h'
        · refine Or.inr ⟨d :: l1, l2, by rw [heq]; rfl, hQq, hseq, hsflt, ?_⟩
          intro e he hQe
          rcases List.mem_cons.mp he with rfl | he
          · have hb : s.flt (sc e) = false := Bool.eq_false_iff.mpr hlt
            rw [Frac.flt_eq_not_fle] at hb
            have h1 : (sc e).fle s = true := by
              revert hb
              cases (sc e).fle s <;> simp
            exact Frac.flt_of_fle_of_flt (hden e hQe) hs hs'pos h1 hsflt
          · exact hl1 e he hQe
    · rw [if_neg hq] at h
      rcases ih p s hs q s' h with h' | ⟨l1, l2, heq, hQq, hseq, hsflt, hl1⟩
      · exact Or.inl h'
      · refine Or.inr ⟨d :: l1, l2, by rw [heq]; rfl, hQq, hseq, hsflt, ?_⟩
        intro e he hQe
        rcases List.mem_cons.mp he with rfl | he
        · exact absurd hQe (by simp [hq])
        · exact hl1 e he hQe

theorem bestStep_foldl_none_first (Q : String → Bool) (sc : String → Frac)
    (hden : ∀ d, Q d = true → 0 < (sc d).den) :
    ∀ (l : List String) (q : String) (s' : Frac),
      l.foldl (bestStep Q sc) none = some (q, s') →
        (∃ l1 l2, l = l1 ++ q :: l2 ∧ Q q = true ∧ s' = sc q ∧
          ∀ d ∈ l1, Q d = true → (sc d).flt s' = true) := by
  intro l
  induction l with
  | nil =>
    intro q s' h
    simp at h
  | cons d l ih =>
    intro q s' h
    rw [List.foldl_cons, bestStep] at h
    by_cases hq : Q d = true
    · rw [if_pos hq] at h
      rcases bestStep_foldl_some_first Q sc hden l d (sc d) (hden d hq) q s' h with
        ⟨rfl, rfl⟩ | ⟨l1, l2, heq, hQq, hseq, hacc, hl1⟩
      · exact ⟨[], l, rfl, hq, rfl, by intro e he; cases he⟩
      · refine ⟨d :: l1, l2, by rw [heq]; rfl, hQq, hseq, ?_⟩
        intro e he hQe
        rcases List.mem_cons.mp he with rfl | he
        · exact hacc
        · exact hl1 e he hQe
    · rw [if_neg hq] at h
      rcases ih q s' h with ⟨l1, l2, heq, hQq, hseq, hl1⟩
      refine ⟨d :: l1, l2, by rw [heq]; rfl, hQq, hseq, ?_⟩
      intro e he hQe
      rcases List.mem_cons.mp he with rfl | he
      · exact absurd hQe (by simp [hq])
      · exact hl1 e he hQe

/-- C3 counterexample: `d1.txt` and `d2.txt` tie exactly (both score `2/4`
against the added file at threshold `0.5`, no basename boost), both qualify,
yet the pairing goes to the FIRST-seen candidate `d1.txt`, not the last-seen
`d2.txt`: the source replaces the running best only on `adjusted > best_sim`,
which keeps the earlier candidate on equal scores. -/
theorem C3_counterexample_tie_first_seen_wins :
    (calculate_similarity "a\nb\nx\n" "a\nb\nc\n" =
      calculate_similarity "a\nb\ny\n" "a\nb\nc\n") ∧
    phase2Qualifies [("d1.txt", fileEntry "a\nb\nx\n"),
      ("d2.txt", fileEntry "a\nb\ny\n")] ⟨1, 2⟩ "n.txt" "a\nb\nc\n" []
      "d1.txt" = true ∧
    phase2Qualifies [("d1.txt", fileEntry "a\nb\nx\n"),
      ("d2.txt", fileEntry "a\nb\ny\n")] ⟨1, 2⟩ "n.txt" "a\nb\nc\n" []
      "d2.txt" = true ∧
    ((findByPath (build_diff_tree
        [("d1.txt", fileEntry "a\nb\nx\n"), ("d2.txt", fileEntry "a\nb\ny\n")]
        [("n.txt", fileEntry "a\nb\nc\n")] ⟨1, 2⟩) "n.txt").map
      (fun n => (n.status, n.old_path))) =
      some (DiffStatus.Renamed, some "d1.txt") ∧
    ¬ ((findByPath (build_diff_tree
        [("d1.txt", fileEntry "a\nb\nx\n"), ("d2.txt", fileEntry "a\nb\ny\n")]
        [("n.txt", fileEntry "a\nb\nc\n")] ⟨1, 2⟩) "n.txt").map
      (fun n => n.old_path)) = some (some "d2.txt") := by
  refine ⟨by decide, by decide, by decide, by decide, by decide⟩

/-- C3 amended: for one still-unmatched added path, the phase-2 scan returns
`none` exactly when no still-unused deleted candidate passes the filters and
the (boosted) threshold; and when it returns a pair `(q, s)`, then `q`
qualifies with its own boosted score `s`, no qualifying candidate scores
higher than `s`, and every qualifying candidate seen EARLIER in iteration
order scores strictly lower — i.e. the highest score is selected and ties go
to the first-seen (not last-seen) candidate. -/
theorem C3_amended_phase2_selection (fromM : FileMap) (t : Frac)
    (addPath ac : String) (deleted used : List String) :
    (phase2Scan fromM t addPath ac deleted used = none ↔
      ∀ d ∈ deleted, phase2Qualifies fromM t addPath ac used d = false) ∧
    (∀ (q : String) (s : Frac),
      phase2Scan fromM t addPath ac deleted used = some (q, s) →
        (q ∈ deleted ∧ phase2Qualifies fromM t addPath ac used q = true ∧
          s = candScore fromM addPath ac q) ∧
        (∀ d ∈ deleted, phase2Qualifies fromM t addPath ac used d = true →
          (candScore fromM addPath ac d).fle s = true) ∧
        (∃ l1 l2, deleted = l1 ++ q :: l2 ∧
          ∀ d ∈ l1, phase2Qualifies fromM t addPath ac used d = true →
            (candScore fromM addPath ac d).flt s = true)) := by
  have hden : ∀ d, phase2Qualifies fromM t addPath ac used d = true →
      0 < (candScore fromM addPath ac d).den :=
    fun d _ => candScore_den_pos fromM addPath ac d
  rw [phase2Scan_eq_bestStep]
  constructor
  · exact bestStep_foldl_none_iff _ _ deleted
  · intro q s h
    refine ⟨bestStep_foldl_none_shape _ _ deleted q s h, ?_, ?_⟩
    · exact (bestStep_foldl_none_max _ _ hden deleted q s h).2
    · obtain ⟨l1, l2, heq, _, _, hl1⟩ :=
        bestStep_foldl_none_first _ _ hden deleted q s h
      exact ⟨l1, l2, heq, hl1⟩

/-- C3 amended, witness: the scan at the concrete tie input returns the
first-seen candidate `d1.txt` with score `2/4`, and the theorem's guarantees
instantiate there. -/
theorem C3_amended_witness :
    (phase2Scan [("d1.txt", fileEntry "a\nb\nx\n"),
        ("d2.txt", fileEntry "a\nb\ny\n")] ⟨1, 2⟩ "n.txt" "a\nb\nc\n"
        ["d1.txt", "d2.txt"] [] = some ("d1.txt", ⟨2, 4⟩)) ∧
    (("d1.txt" ∈ ["d1.txt", "d2.txt"] ∧
      phase2Qualifies [("d1.txt", fileEntry "a\nb\nx\n"),
        ("d2.txt", fileEntry "a\nb\ny\n")] ⟨1, 2⟩ "n.txt" "a\nb\nc\n" []
        "d1.txt" = true ∧
      (⟨2, 4⟩ : Frac) = candScore [("d1.txt", fileEntry "a\nb\nx\n"),
        ("d2.txt", fileEntry "a\nb\ny\n")] "n.txt" "a\nb\nc\n" "d1.txt") ∧
    (∀ d ∈ ["d1.txt", "d2.txt"],
      phase2Qualifies [("d1.txt", fileEntry "a\nb\nx\n"),
        ("d2.txt", fileEntry "a\nb\ny\n")] ⟨1, 2⟩ "n.txt" "a\nb\nc\n" []
        d = true →
        (candScore [("d1.txt", fileEntry "a\nb\nx\n"),
          ("d2.txt", fileEntry "a\nb\ny\n")] "n.txt" "a\nb\nc\n" d).fle
          ⟨2, 4⟩ = true) ∧
    (∃ l1 l2, ["d1.txt", "d2.txt"] = l1 ++ "d1.txt" :: l2 ∧
      ∀ d ∈ l1,
        phase2Qualifies [("d1.txt", fileEntry "a\nb\nx\n"),
          ("d2.txt", fileEntry "a\nb\ny\n")] ⟨1, 2⟩ "n.txt" "a\nb\nc\n" []
          d = true →
          (candScore [("d1.txt", fileEntry "a\nb\nx\n"),
            ("d2.txt", fileEntry "a\nb\ny\n")] "n.txt" "a\nb\nc\n" d).flt
            ⟨2, 4⟩ = true)) :=
  ⟨by decide,
    (C3_amended_phase2_selection [("d1.txt", fileEntry "a\nb\nx\n"),
      ("d2.txt", fileEntry "a\nb\ny\n")] ⟨1, 2⟩ "n.txt" "a\nb\nc\n"
      ["d1.txt", "d2.txt"] []).2 "d1.txt" ⟨2, 4⟩ (by decide)⟩

end Diffpack
